import Mathlib

/-!
Verification of the conversation-archive tool (`src/archive_tool.py`).

The Python program is dynamically typed, so the embedding works over a deep
model `Pyval` of the JSON-like values the program manipulates (JSON object
keys are always strings).  Python operations that can raise (`.get` on a
non-dict, iteration over a non-iterable, `in` with an unhashable left
operand, `int(float("inf"))`, ...) are modelled in the `Except PyErr` monad.
Python `while` loops and recursions are modelled by structurally recursive
functions on a fuel parameter; every top-level entry point passes a fuel
bound that is large enough (for the active-path walk this sufficiency is
proved: see the fuel-stability theorem for claim C6).

Python floats are modelled by rationals plus explicit infinity/NaN markers;
the only place float rounding could diverge from rational arithmetic is the
division by 1000 of timestamps above 10^12, which no claim's concrete values
exercise.  `datetime` conversions (naive local time in Python) are modelled
with a fixed zero UTC offset via the proleptic Gregorian calendar; all
claims about timestamps only depend on differences or on concrete values
under this fixed-offset convention.
-/

/-- Python-level runtime errors that the modelled fragments can raise. -/
inductive PyErr where
  | attributeError
  | typeError
  | overflowError
  | valueError
  | outOfFuel
deriving Repr, DecidableEq

/-- JSON-like Python values (`None`, `bool`, `int`, `float`, `str`, `list`,
`dict` with string keys), the data the archive tool manipulates. -/
inductive Pyval where
  | none
  | bool (b : Bool)
  | int (n : Int)
  | float (q : ℚ)
  | str (s : String)
  | list (xs : List Pyval)
  | dict (fields : List (String × Pyval))

/-- Python truthiness of a value (`bool(v)`). -/
def truthy : Pyval → Bool
  | .none => false
  | .bool b => b
  | .int n => n != 0
  | .float q => q != 0
  | .str s => s != ""
  | .list xs => !xs.isEmpty
  | .dict fs => !fs.isEmpty

/-- `d[k]` lookup with a default: models Python `dict.get(k, default)` on the
field list of a dict. -/
def dictGetD (fields : List (String × Pyval)) (k : String) (d : Pyval) : Pyval :=
  match fields.lookup k with
  | some v => v
  | Option.none => d

/-- Models `v.get(k, d)`: only dicts have a `.get` method, anything else
raises `AttributeError`. -/
def pyGetD (v : Pyval) (k : String) (d : Pyval) : Except PyErr Pyval :=
  match v with
  | .dict fs => .ok (dictGetD fs k d)
  | _ => .error .attributeError

/-- Models the frequent Python pattern `(v or {}).get(k)`: a falsy value is
replaced by the empty dict before the `.get`. -/
def orDictGet (v : Pyval) (k : String) : Except PyErr Pyval :=
  if truthy v then pyGetD v k .none else .ok .none

/-- Models `v in keys` where `keys` are the string keys of a dict (or a set
of strings): lists and dicts are unhashable and raise `TypeError`; hashable
non-strings are simply never equal to a string key. -/
def inStrKeys (v : Pyval) (keys : List String) : Except PyErr Bool :=
  match v with
  | .list _ => .error .typeError
  | .dict _ => .error .typeError
  | .str s => .ok (keys.contains s)
  | _ => .ok false

/-- Models `for x in v`: strings yield their characters as 1-char strings,
lists their elements, dicts their keys; other values raise `TypeError`. -/
def pyIter : Pyval → Except PyErr (List Pyval)
  | .str s => .ok (s.data.map (fun c => .str (String.mk [c])))
  | .list xs => .ok xs
  | .dict fs => .ok (fs.map (fun p => .str p.1))
  | _ => .error .typeError

/-- The string keys of a dict's field list. -/
def keysOf (fields : List (String × Pyval)) : List String :=
  fields.map Prod.fst

/-- Characters Python's `str.strip()` removes (ASCII whitespace). -/
def isPyWs (c : Char) : Bool :=
  c = ' ' || c = '\t' || c = '\n' || c = '\r' || c = '\x0b' || c = '\x0c'

/-- Python `str.strip()` on the character list. -/
def stripChars (cs : List Char) : List Char :=
  ((cs.dropWhile isPyWs).reverse.dropWhile isPyWs).reverse

/-- Python `str.strip()`. -/
def pyStrip (s : String) : String :=
  String.mk (stripChars s.data)

section PyNumbers

/-- Result of Python `float(...)`: a finite rational, a signed infinity, or
NaN.  (Finite doubles are modelled exactly as rationals; the claims never
exercise inputs where double rounding differs from rational arithmetic.) -/
inductive PyFloat where
  | fin (q : ℚ)
  | inf (pos : Bool)
  | nan

/-- Numeric value of a digit run (most significant first). -/
def digitsVal (cs : List Char) : Nat :=
  cs.foldl (fun acc c => acc * 10 + (c.toNat - '0'.toNat)) 0

/-- Split a leading run of ASCII digits. -/
def takeDigits (cs : List Char) : List Char × List Char :=
  (cs.takeWhile Char.isDigit, cs.dropWhile Char.isDigit)

/-- Parse the text of Python `float(str)` after stripping: optional sign,
digits with optional fraction and exponent, or `inf`/`infinity`/`nan`.
(Python additionally allows underscores in numeric literals; no claim
depends on those, they are treated as unparsable.) -/
def parseFloatBody (cs : List Char) : Option PyFloat :=
  let (sign, cs) :=
    match cs with
    | '+' :: rest => (true, rest)
    | '-' :: rest => (false, rest)
    | _ => (true, cs)
  let lower := cs.map Char.toLower
  if lower = ['i', 'n', 'f'] || lower = ['i', 'n', 'f', 'i', 'n', 'i', 't', 'y'] then
    some (.inf sign)
  else if lower = ['n', 'a', 'n'] then
    some .nan
  else
    let (ip, rest) := takeDigits cs
    let (fp, rest) :=
      match rest with
      | '.' :: r => takeDigits r
      | _ => ([], rest)
    if ip.isEmpty && fp.isEmpty then Option.none
    else
      let base : ℚ := (digitsVal ip : ℚ) + (digitsVal fp : ℚ) / ((10 : ℚ) ^ fp.length)
      let withExp : Option ℚ :=
        match rest with
        | [] => some base
        | 'e' :: r | 'E' :: r =>
          let (esign, r) :=
            match r with
            | '+' :: r2 => ((1 : Int), r2)
            | '-' :: r2 => ((-1 : Int), r2)
            | _ => ((1 : Int), r)
          let (ed, r) := takeDigits r
          if ed.isEmpty || !r.isEmpty then Option.none
          else some (base * (10 : ℚ) ^ (esign * (digitsVal ed : Int)))
        | _ => Option.none
      withExp.map (fun q => .fin (if sign then q else -q))

/-- Python `float(str)` (strips surrounding whitespace first). -/
def parseFloatStr (cs : List Char) : Option PyFloat :=
  parseFloatBody (stripChars cs)

/-- Python `float(v)` for our value universe: `None`/`list`/`dict` raise
`TypeError` (reported as a failed parse, since every caller catches it). -/
def pyFloat : Pyval → Option PyFloat
  | .bool b => some (.fin (if b then 1 else 0))
  | .int n => some (.fin (n : ℚ))
  | .float q => some (.fin q)
  | .str s => parseFloatStr s.data
  | _ => Option.none

/-- Python `int(q)` on a rational: truncation toward zero. -/
def truncRat (q : ℚ) : Int :=
  if 0 ≤ q.num then (q.num.toNat / q.den : Nat)
  else -((((-q.num).toNat / q.den : Nat) : Int))

/-- `normalize_timestamp`: `None` and unparsable values become 0, values
above `1e12` are divided by 1000 (milliseconds), the result is truncated to
integer seconds.  `int(t)` of an infinite or NaN float raises (Python
`OverflowError`/`ValueError`), which `normalize_timestamp` does not catch. -/
def normalize_timestamp (ts : Pyval) : Except PyErr Int :=
  match ts with
  | .none => .ok 0
  | _ =>
    match pyFloat ts with
    | Option.none => .ok 0
    | some (.fin q) =>
      .ok (truncRat (if q > (10 : ℚ) ^ (12 : ℕ) then q / 1000 else q))
    | some (.inf _) => .error .overflowError
    | some .nan => .error .valueError

end PyNumbers

/-- A normalized message: the `{role, content, ts}` dict built by
`normalize_message` (the role is whatever value the record carried). -/
structure NormMsg where
  role : Pyval
  content : String
  ts : Int

/-- `"\n".join(strings)`. -/
def joinNl (ss : List String) : String :=
  match ss with
  | [] => ""
  | s :: rest => rest.foldl (fun acc x => acc ++ "\n" ++ x) s

/-- The string parts of a list value: `[p for p in parts if isinstance(p, str)]`. -/
def strParts (ps : List Pyval) : List String :=
  ps.filterMap (fun p => match p with | .str s => some s | _ => Option.none)

/-- The role step of `normalize_message`:
`(msg.get("author", {}) or {}).get("role")` (raises on a truthy non-dict
`author`). -/
def authorRole (fs : List (String × Pyval)) : Except PyErr Pyval :=
  if truthy (dictGetD fs "author" (.dict [])) then
    pyGetD (dictGetD fs "author" (.dict [])) "role" .none
  else .ok .none

/-- The content extraction of `normalize_message` before the final
`(content or "").strip()`: a dict content with `parts` joins its string
parts with newlines, a string content is taken as is, a dict content with
`text` yields that raw value, anything else yields `""`. -/
def contentRaw (fs : List (String × Pyval)) : Pyval :=
  match dictGetD fs "content" .none with
  | .dict cfs =>
    if (keysOf cfs).contains "parts" then
      match dictGetD cfs "parts" .none with
      | .list ps => .str (joinNl (strParts ps))
      | _ => .str ""
    else if (keysOf cfs).contains "text" then dictGetD cfs "text" .none
    else .str ""
  | .str s => .str s
  | _ => .str ""

/-- `(content or "").strip()`: raises on a truthy non-string content (the
`content.text` shape can put one here). -/
def contentStr (fs : List (String × Pyval)) : Except PyErr String :=
  match (if truthy (contentRaw fs) then contentRaw fs else .str "") with
  | .str s => .ok (pyStrip s)
  | _ => .error .attributeError

/-- The timestamp selection of `normalize_message`: `create_time` when
truthy, otherwise `metadata.timestamp or metadata.timestamp_` (raising on a
truthy non-dict `metadata`). -/
def tsValue (fs : List (String × Pyval)) : Except PyErr Pyval :=
  if truthy (dictGetD fs "create_time" .none) then
    .ok (dictGetD fs "create_time" .none)
  else do
    let m := if truthy (dictGetD fs "metadata" (.dict [])) then
               dictGetD fs "metadata" (.dict [])
             else .dict []
    let t1 ← pyGetD m "timestamp" .none
    if truthy t1 then .ok t1 else pyGetD m "timestamp_" .none

/-- `normalize_message`: role from `author.role`, `role`, or `"assistant"`;
content from `content.parts` / a string `content` / `content.text`;
timestamp from `create_time` or `metadata.timestamp` / `metadata.timestamp_`.
Dynamic failures (non-dict `author` or `metadata` that are truthy, a truthy
non-string `content.text`, infinite timestamp strings, a non-dict record)
raise, exactly as in Python. -/
def normalize_message (msg : Pyval) : Except PyErr NormMsg :=
  match msg with
  | .dict fs => do
    let aRole ← authorRole fs
    let role :=
      if truthy aRole then aRole
      else
        if truthy (dictGetD fs "role" .none) then dictGetD fs "role" .none
        else .str "assistant"
    let content ← contentStr fs
    let tsV ← tsValue fs
    let tsInt ← normalize_timestamp tsV
    .ok ⟨role, content, tsInt⟩
  | _ => .error .attributeError

section Linearizer

/-- `get_node_message_timestamp`: the normalized timestamp of a node's own
message, 0 when the node or its message is falsy. -/
def get_node_message_timestamp (node : Pyval) : Except PyErr Int :=
  if truthy node = false then .ok 0
  else
    match node with
    | .dict nfs =>
      let msg := dictGetD nfs "message" .none
      if truthy msg = false then .ok 0
      else
        match msg with
        | .dict mfs => do
          let raw := dictGetD mfs "create_time" .none
          let raw2 ←
            if truthy raw then .ok raw
            else do
              let meta := dictGetD mfs "metadata" (.dict [])
              let m := if truthy meta then meta else .dict []
              let t1 ← pyGetD m "timestamp" .none
              if truthy t1 then .ok t1 else pyGetD m "timestamp_" .none
          normalize_timestamp raw2
        | _ => .error .attributeError
    | _ => .error .attributeError

/-- Work items for the fuel-driven evaluation of
`get_latest_subtree_timestamp`: either compute one node, or fold the
remaining children of a node keeping the best timestamp so far.  (Encoding
the children loop as a task avoids mutual recursion while keeping the
recursion structural in the fuel, hence kernel-reducible.) -/
inductive LTask where
  | node (v : Pyval)
  | kids (items : List Pyval) (best : Int)

/-- `get_latest_subtree_timestamp`, with the memo cache threaded explicitly
and the in-progress set passed as a list: identifiers outside the mapping
contribute 0, cached identifiers return their memo, identifiers currently in
progress short-circuit to their own message timestamp; otherwise the node's
timestamp is folded with all children and the result is memoized. -/
def latestGo (mapping : List (String × Pyval)) :
    Nat → LTask → List (String × Int) → List String →
    Except PyErr (Int × List (String × Int))
  | 0, _, _, _ => .error .outOfFuel
  | fuel + 1, .node nid, cache, stack =>
    if truthy nid = false then .ok (0, cache)
    else do
      let inMap ← inStrKeys nid (keysOf mapping)
      if inMap = false then .ok (0, cache)
      else
        match nid with
        | .str s =>
          match cache.lookup s with
          | some v => .ok (v, cache)
          | Option.none =>
            if stack.contains s then do
              let t ← get_node_message_timestamp (dictGetD mapping s .none)
              .ok (t, cache)
            else do
              let node := dictGetD mapping s .none
              let node2 := if truthy node then node else .dict []
              let base ← get_node_message_timestamp node2
              let childrenV ← pyGetD node2 "children" (.list [])
              let childs := if truthy childrenV then childrenV else .list []
              let items ← pyIter childs
              let (best, cache2) ← latestGo mapping fuel (.kids items base) cache (s :: stack)
              .ok (best, (s, best) :: cache2)
        | _ => .ok (0, cache)
  | _ + 1, .kids [] best, cache, _ => .ok (best, cache)
  | fuel + 1, .kids (c :: cs) best, cache, stack => do
    let (t, cache2) ← latestGo mapping fuel (.node c) cache stack
    latestGo mapping fuel (.kids cs (if t > best then t else best)) cache2 stack

/-- The number of items the children loop of one node would iterate over
(shallow count of the node's `children` value). -/
def childItemCount (v : Pyval) : Nat :=
  match v with
  | .dict nfs =>
    match dictGetD nfs "children" (.list []) with
    | .list xs => xs.length
    | .str s => s.length
    | .dict fs => fs.length
    | _ => 0
  | _ => 0

/-- Fuel passed to `latestGo`.  The fuel only bounds the nesting depth of
`.node`/`.kids` frames (sibling calls reuse the same fuel): along any chain
of nested frames each mapping key appears at most once as an expanded
`.node` (the in-progress stack short-circuits revisits), contributing one
frame plus at most its children count of `.kids` frames, so
`2·|mapping| + Σ childItemCount + 3` is strictly larger than any frame
depth the evaluation can reach. -/
def latestFuel (mapping : List (String × Pyval)) : Nat :=
  3 + mapping.length * 2 + (mapping.map (fun p => childItemCount p.2)).sum

/-- The loop body of `collect_path_from_current_node`, structurally
recursive in the fuel.  In the Python code `seen` (a set) and `ids` (a list)
receive exactly the same element at every iteration, so one accumulator
models both; the accumulator is built by consing, which yields directly the
root-first order Python obtains by reversing at the end.  Fuel exhaustion is
modelled as an error; the stability theorem for claim C6 proves that the
fuel passed by `collect_path_from_current_node` is never exhausted. -/
def collectLoop (mapping : List (String × Pyval)) :
    Nat → Pyval → List String → Except PyErr (List String)
  | 0, _, _ => .error .outOfFuel
  | fuel + 1, v, acc =>
    if truthy v = false then .ok acc
    else
      match v with
      | .list _ => .error .typeError
      | .dict _ => .error .typeError
      | .str s =>
        if acc.contains s then .ok acc
        else if (keysOf mapping).contains s = false then .ok acc
        else do
          let p ← orDictGet (dictGetD mapping s .none) "parent"
          collectLoop mapping fuel p (s :: acc)
      | _ => .ok acc

/-- `collect_path_from_current_node`: walk parent links from the declared
current node, stopping on a falsy identifier, an already-visited identifier
or an identifier outside the mapping; returns the identifiers in root-first
order. -/
def collect_path_from_current_node (convFields : List (String × Pyval))
    (mapping : List (String × Pyval)) : Except PyErr (List String) := do
  let v := dictGetD convFields "current_node" .none
  if truthy v = false then .ok []
  else do
    let b ← inStrKeys v (keysOf mapping)
    if b = false then .ok []
    else collectLoop mapping (mapping.length + 1) v []

/-- The root-finding loop of `collect_latest_branch_path`: the first
identifier whose `parent` is `None` or not a mapping key. -/
def rootFind (mapping : List (String × Pyval)) :
    List String → Except PyErr (Option String)
  | [] => .ok Option.none
  | i :: is => do
    let p ← orDictGet (dictGetD mapping i .none) "parent"
    match p with
    | .none => .ok (some i)
    | _ => do
      let m ← inStrKeys p (keysOf mapping)
      if m = false then .ok (some i) else rootFind mapping is

/-- The child-selection fold of `collect_latest_branch_path`: among the
children present in the mapping, pick the one whose subtree has the greatest
latest timestamp (first child wins ties), threading the memo cache. -/
def selectChild (mapping : List (String × Pyval)) :
    List Pyval → Option String → Int → List (String × Int) →
    Except PyErr (Option String × Int × List (String × Int))
  | [], next, best, cache => .ok (next, best, cache)
  | c :: cs, next, best, cache => do
    let b ← inStrKeys c (keysOf mapping)
    if b = false then selectChild mapping cs next best cache
    else
      match c with
      | .str s => do
        let (t, cache2) ← latestGo mapping (latestFuel mapping) (.node c) cache []
        if next.isNone || t > best then selectChild mapping cs (some s) t cache2
        else selectChild mapping cs next best cache2
      | _ => selectChild mapping cs next best cache

/-- The descent loop of `collect_latest_branch_path`. -/
def latestWalk (mapping : List (String × Pyval)) :
    Nat → String → List String → List (String × Int) →
    Except PyErr (List String)
  | 0, _, _, _ => .error .outOfFuel
  | fuel + 1, s, acc, cache =>
    if s = "" then .ok acc.reverse
    else if acc.contains s then .ok acc.reverse
    else if (keysOf mapping).contains s = false then .ok acc.reverse
    else do
      let node := dictGetD mapping s .none
      let node2 := if truthy node then node else .dict []
      let childrenV ← pyGetD node2 "children" (.list [])
      let childs := if truthy childrenV then childrenV else .list []
      if truthy childs = false then .ok (s :: acc).reverse
      else do
        let items ← pyIter childs
        let (next, _, cache2) ← selectChild mapping items Option.none (-1) cache
        match next with
        | Option.none => .ok (s :: acc).reverse
        | some "" => .ok (s :: acc).reverse
        | some s2 => latestWalk mapping fuel s2 (s :: acc) cache2

/-- `collect_latest_branch_path`: find a root, then repeatedly descend into
the child with the latest subtree timestamp. -/
def collect_latest_branch_path (mapping : List (String × Pyval)) :
    Except PyErr (List String) := do
  let allIds := keysOf mapping
  match allIds with
  | [] => .ok []
  | first :: _ => do
    let r ← rootFind mapping allIds
    let root := r.getD first
    latestWalk mapping (mapping.length + 1) root [] []

/-- `path_to_messages`: normalize each node's message along a path, dropping
nodes without a message and messages whose content is empty. -/
def path_to_messages (mapping : List (String × Pyval)) :
    List String → Except PyErr (List NormMsg)
  | [] => .ok []
  | pid :: rest => do
    let node := dictGetD mapping pid .none
    let node2 := if truthy node then node else .dict []
    let msgV ← pyGetD node2 "message" .none
    if truthy msgV = false then path_to_messages mapping rest
    else do
      let m ← normalize_message msgV
      let tail ← path_to_messages mapping rest
      .ok (if m.content != "" then m :: tail else tail)

/-- `linearize_conversation`: compute the active-path candidate and the
latest-branch candidate, then reconcile: an empty active path yields the
fallback, otherwise the strictly longer sequence wins with ties favouring
the active path.  A falsy conversation or mapping short-circuits to `[]`;
a truthy non-dict conversation or mapping raises in Python at its first
dict operation, modelled as an error. -/
def linearize_conversation (conv : Pyval) : Except PyErr (List NormMsg) :=
  if truthy conv = false then .ok []
  else
    match conv with
    | .dict cfs =>
      let mapV := dictGetD cfs "mapping" .none
      if truthy mapV = false then .ok []
      else
        match mapV with
        | .dict ms => do
          let pids ← collect_path_from_current_node cfs ms
          let primary ← path_to_messages ms pids
          let fids ← collect_latest_branch_path ms
          let fallback ← path_to_messages ms fids
          .ok (if primary.isEmpty then fallback
               else if primary.length < fallback.length then fallback
               else primary)
        | _ => .error .typeError
    | _ => .error .attributeError

/-- A yielded conversation: `{title, messages}`. -/
structure Conv where
  title : Pyval
  messages : List NormMsg

/-- Sequential normalization of a flat `messages` array (the flat input
form applies no content filtering). -/
def mapNormalize : List Pyval → Except PyErr (List NormMsg)
  | [] => .ok []
  | m :: rest => do
    let n ← normalize_message m
    let tail ← mapNormalize rest
    .ok (n :: tail)

/-- The per-conversation loop of `parse_openai_conversations`. -/
def convLoop : List Pyval → Except PyErr (List Conv)
  | [] => .ok []
  | conv :: rest =>
    match conv with
    | .dict cfs => do
      let msgs ←
        if truthy (dictGetD cfs "mapping" .none) then
          linearize_conversation conv
        else do
          let raw := dictGetD cfs "messages" (.list [])
          let raw2 := if truthy raw then raw else .list []
          let items ← pyIter raw2
          mapNormalize items
      let tail ← convLoop rest
      if msgs.isEmpty then .ok tail
      else
        .ok (⟨(let t := dictGetD cfs "title" .none;
               if truthy t then t else .str "Conversation"), msgs⟩ :: tail)
    | _ => .error .attributeError

/-- `parse_openai_conversations`: accepts a top-level list, an object with a
`conversations` list, or a single conversation object with a `mapping`;
yields `{title, messages}` for every conversation with a non-empty message
sequence. -/
def parse_openai_conversations (obj : Pyval) : Except PyErr (List Conv) :=
  let conversations : List Pyval :=
    match obj with
    | .list xs => xs
    | .dict fs =>
      match dictGetD fs "conversations" .none with
      | .list cs => cs
      | _ => if truthy (dictGetD fs "mapping" .none) then [obj] else []
    | _ => []
  convLoop conversations

end Linearizer

section StreamingSource

/-- JSON structural whitespace (`json.decoder` skips exactly these). -/
def isJsonWs (c : Char) : Bool :=
  c = ' ' || c = '\t' || c = '\n' || c = '\r'

/-- Skip JSON structural whitespace. -/
def jWs (cs : List Char) : List Char :=
  cs.dropWhile isJsonWs

/-- Decode the body of a JSON string after the opening quote, with escape
sequences.  Control characters below 0x20 are rejected (strict mode).
(`\uXXXX` surrogate-pair recombination is not modelled; no claim decodes
surrogate escapes.) -/
def jString : List Char → List Char → Option (String × List Char)
  | [], _ => Option.none
  | '"' :: rest, acc => some (String.mk acc.reverse, rest)
  | '\\' :: e :: rest, acc =>
    match e with
    | '"' => jString rest ('"' :: acc)
    | '\\' => jString rest ('\\' :: acc)
    | '/' => jString rest ('/' :: acc)
    | 'b' => jString rest ('\x08' :: acc)
    | 'f' => jString rest ('\x0c' :: acc)
    | 'n' => jString rest ('\n' :: acc)
    | 'r' => jString rest ('\r' :: acc)
    | 't' => jString rest ('\t' :: acc)
    | 'u' =>
      match rest with
      | h1 :: h2 :: h3 :: h4 :: rest2 =>
        let isHex (c : Char) : Bool :=
          c.isDigit || ('a' ≤ c && c ≤ 'f') || ('A' ≤ c && c ≤ 'F')
        if isHex h1 && isHex h2 && isHex h3 && isHex h4 then
          let hv (c : Char) : Nat :=
            if c.isDigit then c.toNat - '0'.toNat
            else if 'a' ≤ c then c.toNat - 'a'.toNat + 10
            else c.toNat - 'A'.toNat + 10
          jString rest2 (Char.ofNat (((hv h1 * 16 + hv h2) * 16 + hv h3) * 16 + hv h4) :: acc)
        else Option.none
      | _ => Option.none
    | _ => Option.none
  | c :: rest, acc =>
    if c.toNat < 32 then Option.none else jString rest (c :: acc)

/-- Integer-part scan of a JSON number after the optional sign (`0` or
`[1-9]\d*`): the digit run and the remaining input. -/
def jIntPart (cs1 : List Char) : Option (List Char × List Char) :=
  match cs1 with
  | '0' :: r => some (['0'], r)
  | c :: _ =>
    if c.isDigit then some (takeDigits cs1) else Option.none
  | [] => Option.none

/-- Fraction-part scan of a JSON number (`(\.\d+)?`): the fraction digits
(empty when absent) and the remaining input. -/
def jFracPart (r1 : List Char) : List Char × List Char :=
  match r1 with
  | '.' :: d :: r => if d.isDigit then takeDigits (d :: r) else ([], r1)
  | _ => ([], r1)

/-- Exponent-part scan of a JSON number (`([eE][+-]?\d+)?`): the sign, the
exponent digits and the remaining input, or `Option.none` when absent. -/
def jExpPart (r2 : List Char) : Option (Int × List Char × List Char) :=
  match r2 with
  | 'e' :: r | 'E' :: r =>
    (match r with
     | '+' :: d :: r2' => if d.isDigit then some (1, takeDigits (d :: r2')) else Option.none
     | '-' :: d :: r2' => if d.isDigit then some (-1, takeDigits (d :: r2')) else Option.none
     | d :: r2' => if d.isDigit then some (1, takeDigits (d :: r2')) else Option.none
     | [] => Option.none)
  | _ => Option.none

/-- Decode a JSON number (the maximal span matched by Python's
`NUMBER_RE`: `-?(0|[1-9]\d*)(\.\d+)?([eE][+-]?\d+)?`); integers without a
fraction or exponent decode to `int`, the rest to `float`. -/
def jNumber (cs : List Char) : Option (Pyval × List Char) :=
  let (neg, cs1) :=
    match cs with
    | '-' :: r => (true, r)
    | _ => (false, cs)
  match jIntPart cs1 with
  | Option.none => Option.none
  | some (ip, r1) =>
    let (fp, r2) := jFracPart r1
    match jExpPart r2, fp with
    | Option.none, [] =>
      some (.int (if neg then -(digitsVal ip : Int) else (digitsVal ip : Int)), r2)
    | Option.none, _ =>
      let q : ℚ := (digitsVal ip : ℚ) + (digitsVal fp : ℚ) / ((10 : ℚ) ^ fp.length)
      some (.float (if neg then -q else q), r2)
    | some (esign, ed, r4), _ =>
      let q : ℚ := ((digitsVal ip : ℚ) + (digitsVal fp : ℚ) / ((10 : ℚ) ^ fp.length))
        * (10 : ℚ) ^ (esign * (digitsVal ed : Int))
      some (.float (if neg then -q else q), r4)

/-- Insert a key into a decoded object, replacing an earlier binding (JSON
objects with duplicate keys keep the last value, like Python dicts). -/
def insKV (fs : List (String × Pyval)) (k : String) (v : Pyval) : List (String × Pyval) :=
  if (keysOf fs).contains k then
    fs.map (fun p => if p.1 = k then (k, v) else p)
  else fs ++ [(k, v)]

/-- Work items for the fuel-driven JSON value decoder: a value, the items of
an array being decoded, or the members of an object being decoded. -/
inductive JTask where
  | val (cs : List Char)
  | arr (acc : List Pyval) (cs : List Char)
  | obj (acc : List (String × Pyval)) (cs : List Char)

/-- One JSON value decoder (the recursive core of
`json.JSONDecoder.raw_decode`): decodes exactly one value starting at the
head of the input (no leading whitespace allowed), returning the value and
the remaining input.  `Option.none` is `json.JSONDecodeError`.  (Python's
non-standard `Infinity`/`NaN` literals are not modelled; no claim uses
them.) -/
def jValue : Nat → JTask → Option (Pyval × List Char)
  | 0, _ => Option.none
  | fuel + 1, .val cs =>
    match cs with
    | '{' :: rest =>
      let r := jWs rest
      (match r with
       | '}' :: r2 => some (.dict [], r2)
       | _ => jValue fuel (.obj [] r))
    | '[' :: rest =>
      let r := jWs rest
      (match r with
       | ']' :: r2 => some (.list [], r2)
       | _ => jValue fuel (.arr [] r))
    | '"' :: rest => (jString rest []).map (fun p => (.str p.1, p.2))
    | 't' :: 'r' :: 'u' :: 'e' :: rest => some (.bool true, rest)
    | 'f' :: 'a' :: 'l' :: 's' :: 'e' :: rest => some (.bool false, rest)
    | 'n' :: 'u' :: 'l' :: 'l' :: rest => some (.none, rest)
    | _ => jNumber cs
  | fuel + 1, .arr acc cs =>
    match jValue fuel (.val cs) with
    | some (v, rest) =>
      (match jWs rest with
       | ',' :: r2 => jValue fuel (.arr (v :: acc) (jWs r2))
       | ']' :: r2 => some (.list (v :: acc).reverse, r2)
       | _ => Option.none)
    | Option.none => Option.none
  | fuel + 1, .obj acc cs =>
    match cs with
    | '"' :: rest =>
      (match jString rest [] with
       | some (k, r1) =>
         (match jWs r1 with
          | ':' :: r2 =>
            (match jValue fuel (.val (jWs r2)) with
             | some (v, r3) =>
               let acc2 := insKV acc k v
               (match jWs r3 with
                | ',' :: r4 =>
                  (match jWs r4 with
                   | '"' :: _ => jValue fuel (.obj acc2 (jWs r4))
                   | _ => Option.none)
                | '}' :: r4 => some (.dict acc2, r4)
                | _ => Option.none)
             | Option.none => Option.none)
          | _ => Option.none)
       | Option.none => Option.none)
    | _ => Option.none

/-- Length budget of a decoder work item, used to state that a successful
decode always consumes at least one character of a `.val` input. -/
def jTaskBound : JTask → Nat
  | .val cs => cs.length
  | .arr _ cs => cs.length + 1
  | .obj _ cs => cs.length + 1

/-- `json.JSONDecoder().raw_decode(buf)`: decode one value at index 0,
returning the value and the index just past it, or `Option.none` for
`json.JSONDecodeError`. -/
def rawDecode (cs : List Char) : Option (Pyval × Nat) :=
  (jValue (cs.length + 1) (.val cs)).map (fun p => (p.1, cs.length - p.2.length))

/-- `CHUNK_SIZE`. -/
def CHUNK_SIZE : Nat := 1024 * 1024

/-- Outcome of draining the `iter_json_array` generator: the yielded values
with either a normal end (`StopIteration`) or a raised
`json.JSONDecodeError`. -/
inductive IterRes where
  | ended (vs : List Pyval)
  | failed (vs : List Pyval)

/-- The array-start scan of `iter_json_array`: read chunks until the buffer
contains `[`, returning the buffer just past it and the unread stream, or
`Option.none` when the stream is exhausted first (the generator simply
returns — no error). -/
def iterFindStart : Nat → List Char → List Char → Option (List Char × List Char)
  | 0, _, _ => Option.none
  | fuel + 1, buf, rem =>
    let chunk := rem.take CHUNK_SIZE
    if chunk.isEmpty then Option.none
    else
      let buf2 := buf ++ chunk
      let rem2 := rem.drop CHUNK_SIZE
      if buf2.contains '[' then
        some ((buf2.dropWhile (fun c => c ≠ '[')).drop 1, rem2)
      else iterFindStart fuel buf2 rem2

/-- Characters the element loop of `iter_json_array` skips between values. -/
def isSep (c : Char) : Bool :=
  c = ' ' || c = '\t' || c = '\r' || c = '\n' || c = ','

/-- The element loop of `iter_json_array`: skip separators; an empty buffer
reads a chunk (end of stream ⇒ normal end); `]` ends the array; otherwise
decode one value (on failure read a chunk and retry, end of stream ⇒ the
`JSONDecodeError` propagates). -/
def iterLoop : Nat → List Char → List Char → List Pyval → IterRes
  | 0, _, _, acc => .failed acc.reverse
  | fuel + 1, buf, rem, acc =>
    let buf := buf.dropWhile isSep
    if buf.isEmpty then
      let chunk := rem.take CHUNK_SIZE
      if chunk.isEmpty then .ended acc.reverse
      else iterLoop fuel chunk (rem.drop CHUNK_SIZE) acc
    else if buf.head? = some ']' then .ended acc.reverse
    else
      match rawDecode buf with
      | some (v, idx) => iterLoop fuel (buf.drop idx) rem (v :: acc)
      | Option.none =>
        let chunk := rem.take CHUNK_SIZE
        if chunk.isEmpty then .failed acc.reverse
        else iterLoop fuel (buf ++ chunk) (rem.drop CHUNK_SIZE) acc

/-- `iter_json_array` on the full file contents: scan for the array start,
then yield decoded elements until the array closes or the stream ends.  The
fuel `buf.length + 2 * rem.length + 2` strictly dominates the loop's
iteration count: every iteration either consumes a decoded prefix of the
buffer (at least one character, since a successful `rawDecode` always
consumes) or moves a non-empty chunk from the stream into the buffer. -/
def iter_json_array (content : String) : IterRes :=
  match iterFindStart (content.length + 1) [] content.data with
  | Option.none => .ended []
  | some (buf, rem) => iterLoop (buf.length + 2 * rem.length + 2) buf rem []

end StreamingSource

section SortingAndText

/-- Does `cs` start with `pat`? -/
def seqStarts : List Char → List Char → Bool
  | [], _ => true
  | _ :: _, [] => false
  | p :: ps, c :: rest => p = c && seqStarts ps rest

/-- Does `cs` end with `pat`? -/
def seqEnds (pat cs : List Char) : Bool :=
  seqStarts pat.reverse cs.reverse

/-- Python `pat in s` substring containment. -/
def containsSeq (pat : List Char) : List Char → Bool
  | [] => pat.isEmpty
  | c :: cs => seqStarts pat (c :: cs) || containsSeq pat cs

/-- Python `s.replace(pat, rep)` (all non-overlapping occurrences, left to
right); structurally recursive in a fuel that one-per-character suffices
for. -/
def replaceSeq (pat rep : List Char) : Nat → List Char → List Char
  | 0, cs => cs
  | _, [] => []
  | fuel + 1, c :: cs =>
    if pat ≠ [] && seqStarts pat (c :: cs) then
      rep ++ replaceSeq pat rep fuel ((c :: cs).drop pat.length)
    else c :: replaceSeq pat rep fuel cs

/-- Python `s.replace(pat, rep)` on strings. -/
def pyReplace (s pat rep : String) : String :=
  String.mk (replaceSeq pat.data rep.data (s.length + 1) s.data)

/-- Lexicographic code-point comparison of character lists (Python's
string ordering). -/
def seqLe : List Char → List Char → Bool
  | [], _ => true
  | _ :: _, [] => false
  | a :: xs, b :: ys =>
    if a.toNat < b.toNat then true
    else if b.toNat < a.toNat then false
    else seqLe xs ys

/-- Python string `<=`. -/
def strLeB (a b : String) : Bool :=
  seqLe a.data b.data

/-- Insert into a sorted list after every element that compares
less-or-equal, as a stable sort's insertion step does. -/
def insSorted (le : α → α → Bool) (x : α) : List α → List α
  | [] => [x]
  | y :: ys => if le y x then y :: insSorted le x ys else x :: y :: ys

/-- Stable insertion sort, modelling Python's stable `sorted`/`list.sort`
(structurally recursive, unlike the well-founded library merge sort, so
concrete runs reduce in the kernel). -/
def sortStable (le : α → α → Bool) (l : List α) : List α :=
  l.foldl (fun acc x => insSorted le x acc) []

/-- Decimal digits of a natural number (fuel-driven, `n+1` is plenty). -/
def natDigitsAux : Nat → Nat → List Char
  | 0, _ => []
  | fuel + 1, n =>
    if n < 10 then [Char.ofNat ('0'.toNat + n)]
    else natDigitsAux fuel (n / 10) ++ [Char.ofNat ('0'.toNat + n % 10)]

/-- Decimal rendering of a natural number. -/
def natStr (n : Nat) : String :=
  String.mk (natDigitsAux (n + 1) n)

/-- Zero-pad a rendering to width `w` (Python `f"{n:0wd}"`). -/
def padZero (w : Nat) (s : String) : String :=
  String.mk (List.replicate (w - s.length) '0') ++ s

end SortingAndText

section MonthBuilder

/-- Python `int(str)` (strict): optional sign and a non-empty digit run
after stripping whitespace. -/
def parseIntChars (cs : List Char) : Option Int :=
  let cs := stripChars cs
  let (neg, ds) :=
    match cs with
    | '+' :: r => (false, r)
    | '-' :: r => (true, r)
    | _ => (false, cs)
  if ds.isEmpty || !ds.all Char.isDigit then Option.none
  else some (if neg then -(digitsVal ds : Int) else (digitsVal ds : Int))

/-- `safe_int` on a string: `int(v)`, else `int(float(v))`, else the
default (an infinite or NaN float makes `int` raise, which the second
`except` also catches). -/
def safe_int (s : String) (default : Int) : Int :=
  match parseIntChars s.data with
  | some n => n
  | Option.none =>
    match parseFloatStr s.data with
    | some (.fin q) => truncRat q
    | _ => default

/-- `line.split("\t", 1)`: the part before the first tab and the part after
it, or `Option.none` when the line has no tab (the `ValueError` branch). -/
def splitTab1 (cs : List Char) : Option (List Char × List Char) :=
  match cs.dropWhile (fun c => c ≠ '\t') with
  | '\t' :: after => some (cs.takeWhile (fun c => c ≠ '\t'), after)
  | _ => Option.none

/-- The sort key of `build_month_files`: `safe_int` of the text before the
first tab (the whole line when there is no tab). -/
def key_fn (line : String) : Int :=
  match splitTab1 line.data with
  | some (before, _) => safe_int (String.mk before) 0
  | Option.none => safe_int line 0

/-- One line of a month file: the timestamp key of the day line it came
from (the leading field that the month build strips), the stripped rendered
text, and the per-month anchor number. -/
structure MonthLine where
  ts : Int
  text : String
  anchor : Nat

/-- The rendered form actually written: `text ^msg-NNNNNN`. -/
def renderMonthLine (ml : MonthLine) : String :=
  ml.text ++ " ^msg-" ++ padZero 6 (natStr ml.anchor)

/-- The per-day-file write loop of `build_month_files`: lines without a tab
are skipped, each written line increments the per-month counter, which
becomes its anchor. -/
def emitLines (c : Nat) : List String → List MonthLine × Nat
  | [] => ([], c)
  | l :: ls =>
    match splitTab1 l.data with
    | Option.none => emitLines c ls
    | some (_, rest) =>
      let (ms, c2) := emitLines (c + 1) ls
      (⟨key_fn l, pyStrip (String.mk rest), c + 1⟩ :: ms, c2)

/-- Month key of a day file name: strip `.raw`, then `"unknown"` stays and
anything else is truncated to `YYYY-MM`. -/
def monthKeyOfName (name : String) : String :=
  let day := pyReplace name ".raw" ""
  if day = "unknown" then "unknown" else String.mk (day.data.take 7)

/-- Processing of one day file: sort its lines by the leading timestamp
(stable), then append the tab-stripped lines with fresh anchors to that
month's output. -/
def processDay (dayFiles : List (String × List String))
    (st : (String → Nat) × (String → List MonthLine)) (name : String) :
    (String → Nat) × (String → List MonthLine) :=
  let mkey := monthKeyOfName name
  let lines := (dayFiles.lookup name).getD []
  let sorted := sortStable (fun a b => decide (key_fn a ≤ key_fn b)) lines
  let (ms, c2) := emitLines (st.1 mkey) sorted
  (fun k => if k = mkey then c2 else st.1 k,
   fun k => if k = mkey then st.2 k ++ ms else st.2 k)

/-- The sorted `.raw` file names `build_month_files` iterates over. -/
def sortedRawNames (dayFiles : List (String × List String)) : List String :=
  sortStable strLeB
    ((dayFiles.map Prod.fst).filter (fun n => seqEnds ".raw".data n.data))

/-- `build_month_files` over the day directory contents (file name ↦
lines), starting from a fresh `by_month` directory: returns the month files
(month key ↦ month lines). -/
def build_month_files (dayFiles : List (String × List String)) :
    String → List MonthLine :=
  ((sortedRawNames dayFiles).foldl (processDay dayFiles)
    (fun _ => 0, fun _ => [])).2

end MonthBuilder

section TopicSegmenter

/-- Proleptic-Gregorian leap year. -/
def isLeap (y : Nat) : Bool :=
  (y % 4 = 0 && y % 100 ≠ 0) || y % 400 = 0

/-- Days in a month (`datetime` validation range for the day-of-month). -/
def daysInMonth (y m : Nat) : Nat :=
  if m = 2 then (if isLeap y then 29 else 28)
  else if m = 4 || m = 6 || m = 9 || m = 11 then 30
  else 31

/-- Days from the civil epoch 1970-01-01 to `y-m-d` (valid proleptic
Gregorian dates, `1 ≤ y`). -/
def civilDays (y m d : Nat) : Int :=
  let y2 := if m ≤ 2 then y - 1 else y
  let era := y2 / 400
  let yoe := y2 % 400
  let mp := if m ≤ 2 then m + 9 else m - 3
  let doy := (153 * mp + 2) / 5 + d - 1
  let doe := yoe * 365 + yoe / 4 - yoe / 100 + doy
  (era * 146097 + doe : Int) - 719468

/-- The timestamp parse of `detect_topic_boundaries`: a line starting with
`[YYYY-MM-DD HH:MM:SS]` whose fields pass `strptime`/`datetime` validation
yields its epoch value; anything else is `None`.  (`datetime.timestamp()`
on a naive datetime uses the host's local offset; a fixed zero offset is
used here — only timestamp differences and concrete fixed-offset values
matter to the claims.) -/
def parse_ts_line (cs : List Char) : Option Int :=
  match cs with
  | '[' :: y1 :: y2 :: y3 :: y4 :: '-' :: m1 :: m2 :: '-' :: d1 :: d2 :: ' ' ::
      h1 :: h2 :: ':' :: n1 :: n2 :: ':' :: s1 :: s2 :: ']' :: _ =>
    if [y1, y2, y3, y4, m1, m2, d1, d2, h1, h2, n1, n2, s1, s2].all Char.isDigit then
      let y := digitsVal [y1, y2, y3, y4]
      let mo := digitsVal [m1, m2]
      let d := digitsVal [d1, d2]
      let h := digitsVal [h1, h2]
      let mi := digitsVal [n1, n2]
      let s := digitsVal [s1, s2]
      if 1 ≤ y && 1 ≤ mo && mo ≤ 12 && 1 ≤ d && d ≤ daysInMonth y mo &&
          h ≤ 23 && mi ≤ 59 && s ≤ 59 then
        some (civilDays y mo d * 86400 + (h * 3600 + mi * 60 + s : Nat))
      else Option.none
    else Option.none
  | _ => Option.none

/-- The parsed timestamp as the boundary loop uses it: epoch 0 is falsy in
Python, so it behaves exactly like a failed parse (neither triggers a gap
check nor updates `last_ts`). -/
def truthyTs (line : String) : Option Int :=
  match parse_ts_line line.data with
  | some t => if t = 0 then Option.none else some t
  | Option.none => Option.none

/-- Does a line contain one of the trigger substrings? -/
def hasTrigger (triggers : List String) (line : String) : Bool :=
  triggers.any (fun t => containsSeq t.data line.data)

/-- The scan of `detect_topic_boundaries`: at each line, a marker when the
parsed timestamp exceeds the last parsed one by at least the gap, and a
marker on a trigger substring; the last parsed (truthy) timestamp is
carried along. -/
def detectLoop (gap : Int) (triggers : List String) :
    List String → Nat → Option Int → List Nat
  | [], _, _ => []
  | line :: rest, i, last =>
    let ts := truthyTs line
    let gapM : List Nat :=
      match last, ts with
      | some l, some t => if t - l ≥ gap * 3600 then [i] else []
      | _, _ => []
    let trigM : List Nat := if hasTrigger triggers line then [i] else []
    gapM ++ trigM ++
      detectLoop gap triggers rest (i + 1)
        (match ts with | some t => some t | Option.none => last)

/-- `detect_topic_boundaries`: the scan markers plus the unconditional
marker at 0, as a sorted duplicate-free list (`sorted(set(markers))`). -/
def detect_topic_boundaries (lines : List String) (gap_hours : Int)
    (triggers : List String) : List Nat :=
  sortStable (fun a b => decide (a ≤ b))
    ((detectLoop gap_hours triggers lines 0 Option.none ++ [0]).dedup)

/-- The date prefix used in a `[TOPIC_START]` line: `line[1:11]` when the
boundary line starts with `[`, else `"unknown"`. -/
def topicHeadDate (line : String) : String :=
  match line.data with
  | '[' :: rest => String.mk (rest.take 10)
  | _ => "unknown"

/-- A synthesized `[TOPIC_START] <date> Topic-NNN` marker line. -/
def mkTopicLine (line : String) (idx : Nat) : String :=
  "[TOPIC_START] " ++ topicHeadDate line ++ " Topic-" ++ padZero 3 (natStr idx)

/-- The annotation loop of `build_topic_preview`: emit a numbered marker
line immediately before each boundary line. -/
def annotate (markers : List Nat) : List String → Nat → Nat → List String
  | [], _, _ => []
  | l :: ls, i, tidx =>
    if markers.contains i then
      mkTopicLine l (tidx + 1) :: l :: annotate markers ls (i + 1) (tidx + 1)
    else l :: annotate markers ls (i + 1) tidx

/-- The `.topics.md` content `build_topic_preview` writes for one month
file's lines (empty files are skipped). -/
def build_topic_preview_lines (lines : List String) (gap_hours : Int)
    (triggers : List String) : List String :=
  if lines.isEmpty then []
  else annotate (detect_topic_boundaries lines gap_hours triggers) lines 0 0

end TopicSegmenter

section TopicSplitter

/-- The topic title taken from a `[TOPIC_START]` line:
`line.replace("[TOPIC_START]", "").strip()`. -/
def markerTitle (line : String) : String :=
  pyStrip (pyReplace line "[TOPIC_START]" "")

/-- One flushed topic document (title and body lines, in flush order). -/
structure TopicDoc where
  title : String
  body : List String

/-- The line loop of `split_topics`.  `flush` with a falsy title (no
`[TOPIC_START]` seen yet, or an empty title) returns without clearing the
buffer, so buffered lines survive into the next flush. -/
def splitLoop : List String → Option String → List String → List TopicDoc
  | [], current, buffer =>
    (match current with
     | some t => if t = "" then [] else [⟨t, buffer.reverse⟩]
     | Option.none => [])
  | line :: rest, current, buffer =>
    if seqStarts "[TOPIC_START]".data line.data then
      match current with
      | some t =>
        if t = "" then splitLoop rest (some (markerTitle line)) buffer
        else ⟨t, buffer.reverse⟩ :: splitLoop rest (some (markerTitle line)) []
      | Option.none => splitLoop rest (some (markerTitle line)) buffer
    else splitLoop rest current (line :: buffer)

/-- `split_topics` restricted to its document-materialization effect: the
topic documents flushed, in order. -/
def split_topics_docs (lines : List String) : List TopicDoc :=
  splitLoop lines Option.none []

end TopicSplitter

section SpecPredicates

/-- `TOPIC_TRIGGERS_DEFAULT`. -/
def TOPIC_TRIGGERS_DEFAULT : List String :=
  ["对了", "话说回来", "顺便", "另外", "再说", "哦对", "换个话题", "题外话"]

/-- A value that is falsy or a dict (the shapes on which the
`(x or {}).get(...)` pattern cannot raise). -/
def dictOrFalsy (v : Pyval) : Prop :=
  truthy v = false ∨ ∃ gs, v = .dict gs

/-- A value that is falsy or a string. -/
def strOrFalsy (v : Pyval) : Prop :=
  truthy v = false ∨ ∃ s, v = .str s

/-- A value whose `float(...)` is not infinite and not NaN (so that the
uncaught `int(t)` in `normalize_timestamp` cannot raise). -/
def finFloatish (v : Pyval) : Prop :=
  (∀ b, pyFloat v ≠ some (.inf b)) ∧ pyFloat v ≠ some .nan

/-- The metadata timestamp choice of `normalize_message`:
`meta.get("timestamp") or meta.get("timestamp_")`. -/
def metaTs (mm : List (String × Pyval)) : Pyval :=
  let t1 := dictGetD mm "timestamp" .none
  if truthy t1 then t1 else dictGetD mm "timestamp_" .none

/-- The record shapes on which `normalize_message` is total: `author` and
`metadata` (when consulted) are dicts or falsy, a consulted `content.text`
is a string or falsy, and the selected timestamp value does not parse to an
infinite/NaN float. -/
def normTotalShape (fs : List (String × Pyval)) : Prop :=
  dictOrFalsy (dictGetD fs "author" (.dict [])) ∧
  (match dictGetD fs "content" .none with
   | .dict cfs =>
     ((keysOf cfs).contains "parts" = false ∧ (keysOf cfs).contains "text" = true) →
       strOrFalsy (dictGetD cfs "text" .none)
   | _ => True) ∧
  (if truthy (dictGetD fs "create_time" .none) then
     finFloatish (dictGetD fs "create_time" .none)
   else
     dictOrFalsy (dictGetD fs "metadata" (.dict [])) ∧
     ∀ mm, (if truthy (dictGetD fs "metadata" (.dict [])) then
              dictGetD fs "metadata" (.dict [])
            else .dict []) = .dict mm →
       finFloatish (metaTs mm))

/-- Would the active-path `while` guard stop on value `v` with visited set
`acc`?  (Falsy, an already-visited or unmapped string key, or a hashable
non-string — which can never be a mapping key.) -/
def stopsHere (mapping : List (String × Pyval)) (acc : List String) (v : Pyval) : Bool :=
  if truthy v = false then true
  else
    match v with
    | .str s => acc.contains s || !(keysOf mapping).contains s
    | .list _ => false
    | .dict _ => false
    | _ => true

/-- The `last_ts` state of the boundary scan after consuming the first `d`
lines, starting from `last`. -/
def lastFrom (last : Option Int) (lines : List String) (d : Nat) : Option Int :=
  (lines.take d).foldl
    (fun acc line => match truthyTs line with | some t => some t | Option.none => acc) last

/-- The last truthy parsed timestamp strictly before line `i`. -/
def lastTsBefore (lines : List String) (i : Nat) : Option Int :=
  lastFrom Option.none lines i

/-- Line `i` completes a gap boundary: it parses to a truthy timestamp that
exceeds the last previous truthy timestamp by at least `gap` hours. -/
def gapAt (lines : List String) (gap : Int) (i : Nat) : Prop :=
  ∃ line t l, lines[i]? = some line ∧ truthyTs line = some t ∧
    lastTsBefore lines i = some l ∧ t - l ≥ gap * 3600

/-- Line `i` contains a trigger substring. -/
def trigAt (triggers : List String) (lines : List String) (i : Nat) : Prop :=
  ∃ line, lines[i]? = some line ∧ hasTrigger triggers line = true

/-- Day files `n1` (earlier) and `n2` (later) are consistently bucketed for
month `k`: when both belong to month `k`, every timestamp key in `n1` is at
most every timestamp key in `n2`.  Day files produced by the day-bucketing
writer satisfy this, since a line's key determines its day file and day
names sort chronologically. -/
def crossOrdered (dayFiles : List (String × List String)) (k : String)
    (n1 n2 : String) : Prop :=
  monthKeyOfName n1 = k → monthKeyOfName n2 = k →
    ∀ l1 ∈ (dayFiles.lookup n1).getD [], ∀ l2 ∈ (dayFiles.lookup n2).getD [],
      key_fn l1 ≤ key_fn l2

end SpecPredicates

/-! ### Generic lemmas -/

theorem exceptBind_eq_ok {α β : Type} {e : Except PyErr α} {f : α → Except PyErr β} {b : β} :
    (e >>= f) = .ok b ↔ ∃ a, e = .ok a ∧ f a = .ok b := by
  cases e <;> simp [Bind.bind, Except.bind]

theorem exc_ok_bind {α β : Type} (a : α) (f : α → Except PyErr β) :
    (Except.ok a >>= f) = f a := rfl

theorem dropWhile_len_le {α : Type} (p : α → Bool) (l : List α) :
    (l.dropWhile p).length ≤ l.length := by
  induction l with
  | nil => simp [List.dropWhile]
  | cons a l ih =>
    rw [List.dropWhile_cons]
    by_cases h : p a
    · rw [if_pos h]
      exact le_trans ih (Nat.le_succ _)
    · rw [if_neg h]

theorem ite_some_of {α : Type} {c : Prop} [Decidable c] {x : Option α} {y : α}
    (h : (if c then x else Option.none) = some y) : x = some y := by
  by_cases hc : c
  · rwa [if_pos hc] at h
  · rw [if_neg hc] at h
    exact Option.noConfusion h

theorem normalize_timestamp_eq (v : Pyval) :
    normalize_timestamp v =
      match pyFloat v with
      | Option.none => .ok 0
      | some (.fin q) => .ok (truncRat (if q > (10 : ℚ) ^ (12 : ℕ) then q / 1000 else q))
      | some (.inf _) => .error .overflowError
      | some .nan => .error .valueError := by
  cases v <;> rfl

theorem normalize_timestamp_isOk {v : Pyval} (h : finFloatish v) :
    ∃ n, normalize_timestamp v = .ok n := by
  obtain ⟨hinf, hnan⟩ := h
  rw [normalize_timestamp_eq]
  rcases hpf : pyFloat v with _ | pf
  · exact ⟨0, rfl⟩
  · cases pf with
    | fin q => exact ⟨_, rfl⟩
    | inf b => exact absurd hpf (hinf b)
    | nan => exact absurd hpf hnan

/-! ### Claim C9 -/

/-- C9: normalizing a message with `content.parts = ["a","b"]` yields
content `"a\nb"`; the millisecond timestamp 1700000000000 normalizes to the
same integer-second value as the second timestamp 1700000000; and every
integer timestamp above 10^12 is divided by 1000 and truncated. -/
theorem c9_parts_and_ms_roundtrip :
    normalize_message (.dict [("content", .dict [("parts", .list [.str "a", .str "b"])])]) =
      .ok ⟨.str "assistant", "a\nb", 0⟩ ∧
    normalize_timestamp (.int 1700000000000) = .ok 1700000000 ∧
    normalize_timestamp (.int 1700000000) = .ok 1700000000 ∧
    ∀ n : Int, (10 : ℚ) ^ (12 : ℕ) < (n : ℚ) →
      normalize_timestamp (.int n) = .ok (truncRat ((n : ℚ) / 1000)) := by
  refine ⟨rfl, ?_, ?_, ?_⟩
  · norm_num [normalize_timestamp, pyFloat, truncRat]
  · norm_num [normalize_timestamp, pyFloat, truncRat]
  · intro n h
    simp [normalize_timestamp, pyFloat, h]

/-- C9 witness: the millisecond branch applied at 2000000000000. -/
theorem c9_witness : normalize_timestamp (.int 2000000000000) = .ok 2000000000 := by
  have h := c9_parts_and_ms_roundtrip.2.2.2 2000000000000 (by norm_num)
  rw [h]
  norm_num [truncRat]

/-! ### Claim C2 -/

/-- C2 counterexample: a record whose `author` field is a truthy non-dict
makes `normalize_message` raise `AttributeError` (at
`(msg.get("author", {}) or {}).get("role")`), so the normalizer is not
total over arbitrary record shapes. -/
theorem c2_counterexample :
    normalize_message (.dict [("author", .str "user")]) = .error .attributeError := rfl

theorem normalize_message_ok_shape (fs : List (String × Pyval)) (m : NormMsg)
    (h : normalize_message (.dict fs) = .ok m) :
    ∃ aR c tv n, authorRole fs = .ok aR ∧ contentStr fs = .ok c ∧
      tsValue fs = .ok tv ∧ normalize_timestamp tv = .ok n ∧
      m = ⟨if truthy aR then aR
           else if truthy (dictGetD fs "role" .none) then dictGetD fs "role" .none
           else .str "assistant", c, n⟩ := by
  simp only [normalize_message] at h
  rw [exceptBind_eq_ok] at h
  obtain ⟨aR, hA, h⟩ := h
  rw [exceptBind_eq_ok] at h
  obtain ⟨c, hC, h⟩ := h
  rw [exceptBind_eq_ok] at h
  obtain ⟨tv, hT, h⟩ := h
  rw [exceptBind_eq_ok] at h
  obtain ⟨n, hN, h⟩ := h
  injection h with h
  exact ⟨aR, c, tv, n, hA, hC, hT, hN, h.symm⟩

/-- C2 (amended): `normalize_message` returns a `{role, content, ts}` result
without raising for every dict-shaped record whose `author` and `metadata`
fields (when consulted and truthy) are dicts, whose consulted `content.text`
is a string or falsy, and whose selected timestamp value does not parse to
an infinite/NaN float; missing or falsy pieces degrade to the defaults, on
every record that normalizes: a falsy `author` (or one without a truthy
`role`) together with a falsy `role` field gives role `"assistant"`, a falsy
extracted content gives content `""`, and falsy `create_time` and `metadata`
give timestamp 0. -/
theorem c2_normalizer_amended :
    (∀ fs, normTotalShape fs → ∃ r, normalize_message (.dict fs) = .ok r) ∧
    normalize_message (.dict []) = .ok ⟨.str "assistant", "", 0⟩ ∧
    (∀ fs r, normalize_message (.dict fs) = .ok r →
      (truthy (dictGetD fs "author" (.dict [])) = false →
       truthy (dictGetD fs "role" .none) = false → r.role = .str "assistant") ∧
      (truthy (contentRaw fs) = false → r.content = "") ∧
      (truthy (dictGetD fs "create_time" .none) = false →
       truthy (dictGetD fs "metadata" (.dict [])) = false → r.ts = 0)) := by
  refine ⟨?_, rfl, ?_⟩
  case refine_2 =>
    intro fs r hok
    obtain ⟨aR, c, tv, n, hA, hC, hT, hN, hr⟩ := normalize_message_ok_shape fs r hok
    refine ⟨?_, ?_, ?_⟩
    · intro hauth hrole
      have haR : aR = Pyval.none := by
        unfold authorRole at hA
        rw [if_neg (by simp [hauth])] at hA
        injection hA with h1
        exact h1.symm
      have hrr : r.role = if truthy aR then aR
          else if truthy (dictGetD fs "role" .none) then dictGetD fs "role" .none
          else .str "assistant" := by rw [hr]
      rw [hrr, haR, if_neg (by decide), if_neg (by simp [hrole])]
    · intro hcf
      have hcomp : contentStr fs = .ok "" := by
        unfold contentStr
        rw [if_neg (by simp [hcf])]
        rfl
      rw [hC] at hcomp
      injection hcomp with h1
      have hrc : r.content = c := by rw [hr]
      rw [hrc, h1]
    · intro hct hmeta
      have htv : tsValue fs = .ok Pyval.none := by
        unfold tsValue
        rw [if_neg (by simp [hct]), if_neg (by simp [hmeta])]
        rfl
      rw [hT] at htv
      injection htv with h1
      rw [h1] at hN
      have hn0 : (Except.ok 0 : Except PyErr Int) = .ok n := hN
      injection hn0 with h2
      have hrt : r.ts = n := by rw [hr]
      rw [hrt, ← h2]
  intro fs h
  obtain ⟨ha, hc, ht⟩ := h
  simp only [normalize_message]
  -- the author step succeeds
  have hA : ∃ aR, authorRole fs = .ok aR := by
    unfold authorRole
    rcases ha with hfa | ⟨gs, hgs⟩
    · exact ⟨.none, by simp [hfa]⟩
    · by_cases htr : truthy (dictGetD fs "author" (.dict []))
      · refine ⟨dictGetD gs "role" .none, ?_⟩
        rw [if_pos htr, hgs]
        rfl
      · exact ⟨.none, by simp [htr]⟩
  obtain ⟨aR, hA⟩ := hA
  -- the content step succeeds
  have hC : ∃ cs, contentStr fs = .ok cs := by
    have hshape : (∃ s, contentRaw fs = .str s) ∨ truthy (contentRaw fs) = false := by
      unfold contentRaw
      rcases hdc : dictGetD fs "content" .none with _ | b | n | q | s | xs | cfs
      case str => exact Or.inl ⟨s, rfl⟩
      case dict =>
        rw [hdc] at hc
        by_cases hp : (keysOf cfs).contains "parts"
        · simp only [hp, if_true]
          rcases dictGetD cfs "parts" .none with _ | _ | _ | _ | _ | ps | _ <;>
            exact Or.inl ⟨_, rfl⟩
        · by_cases htx : (keysOf cfs).contains "text"
          · simp only [hp, htx, Bool.false_eq_true, if_false, if_true]
            rcases hc ⟨by simpa using hp, htx⟩ with hft | ⟨s3, hs3⟩
            · exact Or.inr hft
            · exact Or.inl ⟨s3, hs3⟩
          · simp only [hp, htx, Bool.false_eq_true, if_false]
            exact Or.inl ⟨"", rfl⟩
      all_goals exact Or.inl ⟨"", rfl⟩
    unfold contentStr
    rcases hshape with ⟨s, hs⟩ | hf
    · by_cases htr : truthy (contentRaw fs)
      · rw [if_pos htr, hs]
        exact ⟨pyStrip s, rfl⟩
      · rw [if_neg htr]
        exact ⟨pyStrip "", rfl⟩
    · rw [if_neg (by simp [hf])]
      exact ⟨pyStrip "", rfl⟩
  obtain ⟨cs, hC⟩ := hC
  -- the timestamp step succeeds with a value excluded from inf/nan
  have hT : ∃ tv, tsValue fs = .ok tv ∧ finFloatish tv := by
    unfold tsValue
    by_cases hts : truthy (dictGetD fs "create_time" .none)
    · rw [if_pos hts] at ht
      exact ⟨_, by rw [if_pos hts], ht⟩
    · rw [if_neg hts] at ht
      obtain ⟨hm, hmm⟩ := ht
      rw [if_neg hts]
      have hMm : ∃ mm, (if truthy (dictGetD fs "metadata" (.dict [])) then
          dictGetD fs "metadata" (.dict []) else .dict []) = .dict mm := by
        rcases hm with hfm | ⟨gs, hgs⟩
        · exact ⟨[], by simp [hfm]⟩
        · by_cases htr : truthy (dictGetD fs "metadata" (.dict []))
          · exact ⟨gs, by rw [if_pos htr]; exact hgs⟩
          · exact ⟨[], by simp [htr]⟩
      obtain ⟨mm, hMm⟩ := hMm
      have hfin := hmm mm hMm
      rw [hMm]
      simp only [pyGetD]
      by_cases h1 : truthy (dictGetD mm "timestamp" .none)
      · refine ⟨dictGetD mm "timestamp" .none, ?_, ?_⟩
        · simp [h1, exc_ok_bind]
        · simpa [metaTs, h1] using hfin
      · refine ⟨dictGetD mm "timestamp_" .none, ?_, ?_⟩
        · simp [h1, exc_ok_bind, pyGetD]
        · simpa [metaTs, h1] using hfin
  obtain ⟨tv, hT, hfinv⟩ := hT
  obtain ⟨n, hn⟩ := normalize_timestamp_isOk hfinv
  refine ⟨⟨if truthy aR then aR
           else if truthy (dictGetD fs "role" .none) then dictGetD fs "role" .none
           else .str "assistant", cs, n⟩, ?_⟩
  rw [hA, exc_ok_bind, hC, exc_ok_bind, hT, exc_ok_bind, hn, exc_ok_bind]

/-- C2 witness: the amended totality applied to a record exercising every
default (falsy author, content dict with a falsy text, falsy metadata), and
the default-degradation clauses applied to that record's normalized
message. -/
theorem c2_witness :
    (∃ r, normalize_message (.dict [("author", .none),
      ("content", .dict [("text", .int 0)]), ("metadata", .none)]) = .ok r) ∧
    (⟨.str "assistant", "", 0⟩ : NormMsg).role = .str "assistant" ∧
    (⟨.str "assistant", "", 0⟩ : NormMsg).content = "" ∧
    (⟨.str "assistant", "", 0⟩ : NormMsg).ts = 0 := by
  constructor
  · apply c2_normalizer_amended.1
    refine ⟨Or.inl rfl, fun _ => Or.inl (by decide), ?_⟩
    rw [if_neg (by decide)]
    refine ⟨Or.inl rfl, fun mm hmm => ?_⟩
    rw [if_neg (by decide)] at hmm
    cases hmm
    exact ⟨fun b h => by simp [metaTs, dictGetD, pyFloat] at h,
           by simp [metaTs, dictGetD, pyFloat]⟩
  · have h := c2_normalizer_amended.2.2 [("author", Pyval.none),
      ("content", .dict [("text", .int 0)]), ("metadata", Pyval.none)]
      ⟨.str "assistant", "", 0⟩ rfl
    exact ⟨h.1 (by decide) (by decide), h.2.1 (by decide),
           h.2.2 (by decide) (by decide)⟩

/-! ### Claim C4 -/

theorem iterFindStart_no_bracket :
    ∀ (fuel : Nat) (buf rem : List Char), '[' ∉ buf → '[' ∉ rem →
      iterFindStart fuel buf rem = Option.none := by
  intro fuel
  induction fuel with
  | zero => intros; rfl
  | succ n ih =>
    intro buf rem hb hr
    simp only [iterFindStart]
    by_cases hc : (rem.take CHUNK_SIZE).isEmpty
    · simp [hc]
    · have h1 : '[' ∉ buf ++ rem.take CHUNK_SIZE := by
        intro hmem
        rcases List.mem_append.mp hmem with h | h
        · exact hb h
        · exact hr (List.take_subset _ _ h)
      have h2 : (buf ++ rem.take CHUNK_SIZE).contains '[' = false := by
        simpa using h1
      simp only [hc, Bool.false_eq_true, if_false, h2]
      exact ih _ _ h1 (fun hm => hr (List.drop_subset _ _ hm))

theorem jWs_len_le (cs : List Char) : (jWs cs).length ≤ cs.length :=
  dropWhile_len_le isJsonWs cs

theorem jString_len_lt :
    ∀ (n : Nat) (cs : List Char), cs.length ≤ n →
      ∀ (acc : List Char) (s : String) (r : List Char),
        jString cs acc = some (s, r) → r.length < cs.length := by
  intro n
  induction n with
  | zero =>
    intro cs hle acc s r h
    rcases cs with _ | ⟨c, cs⟩
    · exact Option.noConfusion h
    · simp at hle
  | succ n ih =>
    intro cs hle acc s r h
    rw [jString.eq_def] at h
    split at h
    all_goals try exact Option.noConfusion h
    · injection h with h
      injection h with h1 h2
      subst h2
      simp
    · split at h
      all_goals try exact Option.noConfusion h
      all_goals try
        (refine lt_trans (ih _ ?_ _ _ _ h) ?_ <;>
          (try simp only [List.length_cons] at hle) <;>
          (try simp only [List.length_cons]) <;> omega)
      split at h
      · simp only [] at h
        have h2 := ite_some_of h
        refine lt_trans (ih _ ?_ _ _ _ h2) ?_ <;>
          (try simp only [List.length_cons] at hle) <;>
          (try simp only [List.length_cons]) <;> omega
      · exact Option.noConfusion h
    · split at h
      · exact Option.noConfusion h
      · refine lt_trans (ih _ ?_ _ _ _ h) ?_ <;>
          (try simp only [List.length_cons] at hle) <;>
          (try simp only [List.length_cons]) <;> omega

theorem takeDigits_eq_le {l a b : List Char}
    (h : takeDigits l = (a, b)) : b.length ≤ l.length := by
  have h2 : (takeDigits l).2 = b := by rw [h]
  rw [← h2]
  exact dropWhile_len_le Char.isDigit l

theorem takeDigits_cons_lt {c : Char} {t a b : List Char}
    (hc : c.isDigit = true) (h : takeDigits (c :: t) = (a, b)) : b.length < (c :: t).length := by
  have h2 : (takeDigits (c :: t)).2 = b := by rw [h]
  rw [← h2]
  show ((c :: t).dropWhile Char.isDigit).length < _
  rw [List.dropWhile_cons, if_pos hc]
  exact Nat.lt_succ_of_le (dropWhile_len_le Char.isDigit t)

theorem jIntPart_lt {cs1 ip r1 : List Char} (h : jIntPart cs1 = some (ip, r1)) :
    r1.length < cs1.length := by
  unfold jIntPart at h
  split at h
  · injection h with h1
    injection h1 with h2 h3
    subst h3
    simp
  · split at h
    · rename_i hdig
      injection h with h1
      exact takeDigits_cons_lt hdig h1
    · exact Option.noConfusion h
  · exact Option.noConfusion h

theorem jFracPart_le (r1 : List Char) : (jFracPart r1).2.length ≤ r1.length := by
  unfold jFracPart
  split
  · split
    · exact le_trans (dropWhile_len_le Char.isDigit _) (by simp)
    · exact le_refl _
  · exact le_refl _

theorem jExpPart_le {r2 : List Char} {esign : Int} {ed r4 : List Char}
    (h : jExpPart r2 = some (esign, ed, r4)) : r4.length ≤ r2.length := by
  unfold jExpPart at h
  split at h
  all_goals try exact Option.noConfusion h
  all_goals split at h
  all_goals try exact Option.noConfusion h
  all_goals
    (have h5 := ite_some_of h
     injection h5 with h6
     injection h6 with h7 h8
     have h9 := takeDigits_eq_le h8
     simp only [List.length_cons] at h9 ⊢
     omega)

theorem jNumber_len_lt (cs : List Char) (v : Pyval) (r : List Char)
    (h : jNumber cs = some (v, r)) : r.length < cs.length := by
  unfold jNumber at h
  split at h
  rename_i neg cs1 heq
  have hcs1 : cs1.length ≤ cs.length := by
    split at heq
    · injection heq with h1 h2
      subst h2
      simp
    · injection heq with h1 h2
      subst h2
      exact le_refl _
  clear heq
  split at h
  · exact Option.noConfusion h
  rename_i ip r1 heqI
  have hr1 : r1.length < cs1.length := jIntPart_lt heqI
  rcases hf : jFracPart r1 with ⟨fp, r2⟩
  have hr2 : r2.length ≤ r1.length := by
    have h3 := jFracPart_le r1
    rw [hf] at h3
    exact h3
  rw [hf] at h
  simp only [] at h
  split at h
  · injection h with h1
    injection h1 with h2 h3
    subst h3
    omega
  · try simp only [] at h
    injection h with h1
    injection h1 with h2 h3
    subst h3
    omega
  · rename_i esign ed r4 heqE
    try simp only [] at h
    injection h with h1
    injection h1 with h2 h3
    subst h3
    have hr4 : r4.length ≤ r2.length := jExpPart_le heqE
    omega

set_option maxHeartbeats 1000000 in
theorem jValue_len_lt :
    ∀ (fuel : Nat) (t : JTask) (v : Pyval) (r : List Char),
      jValue fuel t = some (v, r) → r.length < jTaskBound t := by
  intro fuel
  induction fuel with
  | zero =>
    intro t v r h
    exact Option.noConfusion h
  | succ fuel ih =>
    intro t v r h
    cases t with
    | val cs =>
      simp only [jTaskBound]
      simp only [jValue] at h
      split at h
      · rename_i rest
        split at h
        · rename_i r2 heq
          injection h with h1
          injection h1 with h2 h3
          subst h3
          have hw := jWs_len_le rest
          rw [heq] at hw
          simp only [List.length_cons] at hw ⊢
          omega
        · have hx := ih _ _ _ h
          simp only [jTaskBound] at hx
          have hw := jWs_len_le rest
          simp only [List.length_cons]
          omega
      · rename_i rest
        split at h
        · rename_i r2 heq
          injection h with h1
          injection h1 with h2 h3
          subst h3
          have hw := jWs_len_le rest
          rw [heq] at hw
          simp only [List.length_cons] at hw ⊢
          omega
        · have hx := ih _ _ _ h
          simp only [jTaskBound] at hx
          have hw := jWs_len_le rest
          simp only [List.length_cons]
          omega
      · rename_i rest
        rcases hjs : jString rest [] with _ | ⟨s, r1⟩
        · rw [hjs] at h
          simp at h
        · rw [hjs] at h
          simp only [Option.map] at h
          injection h with h1
          injection h1 with h2 h3
          subst h3
          have hs := jString_len_lt rest.length rest (le_refl _) [] s r1 hjs
          simp only [List.length_cons]
          omega
      · rename_i rest
        injection h with h1
        injection h1 with h2 h3
        subst h3
        simp only [List.length_cons]
        omega
      · rename_i rest
        injection h with h1
        injection h1 with h2 h3
        subst h3
        simp only [List.length_cons]
        omega
      · rename_i rest
        injection h with h1
        injection h1 with h2 h3
        subst h3
        simp only [List.length_cons]
        omega
      · exact jNumber_len_lt _ _ _ h
    | arr acc cs =>
      simp only [jTaskBound]
      simp only [jValue] at h
      split at h
      · rename_i v1 rest heq1
        split at h
        · rename_i r2 heq2
          have hx := ih _ _ _ h
          simp only [jTaskBound] at hx
          have hw2 := jWs_len_le r2
          have hw1 := jWs_len_le rest
          rw [heq2] at hw1
          have hv := ih _ _ _ heq1
          simp only [jTaskBound] at hv
          simp only [List.length_cons] at hw1
          omega
        · rename_i r2 heq2
          injection h with h1
          injection h1 with h2 h3
          subst h3
          have hw1 := jWs_len_le rest
          rw [heq2] at hw1
          have hv := ih _ _ _ heq1
          simp only [jTaskBound] at hv
          simp only [List.length_cons] at hw1
          omega
        · exact Option.noConfusion h
      · exact Option.noConfusion h
    | obj acc cs =>
      simp only [jTaskBound]
      simp only [jValue] at h
      split at h
      · rename_i rest
        split at h
        · rename_i k r1 heqS
          split at h
          · rename_i r2 heqC
            split at h
            · rename_i v3 r3 heqV
              try simp only [] at h
              split at h
              · rename_i r4 heqW
                split at h
                · rename_i rr heqQ
                  have hx := ih _ _ _ h
                  simp only [jTaskBound] at hx
                  have hw4 := jWs_len_le r4
                  have hw3 := jWs_len_le r3
                  rw [heqW] at hw3
                  have hv := ih _ _ _ heqV
                  simp only [jTaskBound] at hv
                  have hw2 := jWs_len_le r2
                  have hw1 := jWs_len_le r1
                  rw [heqC] at hw1
                  have hstr := jString_len_lt rest.length rest (le_refl _) [] k r1 heqS
                  simp only [List.length_cons] at hw3 hw1 ⊢
                  omega
                · exact Option.noConfusion h
              · rename_i r4 heqW
                injection h with h1
                injection h1 with h2 h3
                subst h3
                have hw3 := jWs_len_le r3
                rw [heqW] at hw3
                have hv := ih _ _ _ heqV
                simp only [jTaskBound] at hv
                have hw2 := jWs_len_le r2
                have hw1 := jWs_len_le r1
                rw [heqC] at hw1
                have hstr := jString_len_lt rest.length rest (le_refl _) [] k r1 heqS
                simp only [List.length_cons] at hw3 hw1 ⊢
                omega
              · exact Option.noConfusion h
            · exact Option.noConfusion h
          · exact Option.noConfusion h
        · exact Option.noConfusion h
      · exact Option.noConfusion h

theorem rawDecode_bounds (cs : List Char) (v : Pyval) (idx : Nat)
    (h : rawDecode cs = some (v, idx)) : 1 ≤ idx ∧ idx ≤ cs.length := by
  unfold rawDecode at h
  rcases hj : jValue (cs.length + 1) (.val cs) with _ | ⟨v2, rest⟩
  · rw [hj] at h
    exact Option.noConfusion h
  · rw [hj] at h
    simp only [Option.map] at h
    injection h with h1
    injection h1 with h2 h3
    have hlt := jValue_len_lt _ _ _ _ hj
    simp only [jTaskBound] at hlt
    omega

theorem iterLoop_ended_empty (fuel : Nat) (buf : List Char) (acc : List Pyval)
    (h : buf.dropWhile isSep = []) :
    iterLoop (fuel + 1) buf [] acc = .ended acc.reverse := by
  simp only [iterLoop, h]
  rfl

theorem iterLoop_ended_bracket (fuel : Nat) (buf rem : List Char) (acc : List Pyval)
    (tl : List Char) (h : buf.dropWhile isSep = ']' :: tl) :
    iterLoop (fuel + 1) buf rem acc = .ended acc.reverse := by
  simp only [iterLoop, h]
  rfl

theorem iterLoop_failed_exhausted (fuel : Nat) (buf : List Char) (acc : List Pyval)
    (hne : buf.dropWhile isSep ≠ [])
    (hnb : (buf.dropWhile isSep).head? ≠ some ']')
    (hdec : rawDecode (buf.dropWhile isSep) = Option.none) :
    iterLoop (fuel + 1) buf [] acc = .failed acc.reverse := by
  simp only [iterLoop]
  rw [if_neg (by simpa using hne), if_neg hnb, hdec]
  rfl

theorem iterLoop_failed_source :
    ∀ (fuel : Nat) (buf rem : List Char) (acc vs : List Pyval),
      buf.length + 2 * rem.length < fuel →
      iterLoop fuel buf rem acc = .failed vs →
      ∃ buf2 acc2, vs = acc2.reverse ∧
        buf2.dropWhile isSep ≠ [] ∧
        (buf2.dropWhile isSep).head? ≠ some ']' ∧
        rawDecode (buf2.dropWhile isSep) = Option.none ∧
        iterLoop 1 buf2 [] acc2 = .failed acc2.reverse := by
  intro fuel
  induction fuel with
  | zero =>
    intro buf rem acc vs hm h
    omega
  | succ fuel ih =>
    intro buf rem acc vs hm h
    simp only [iterLoop] at h
    by_cases he : (buf.dropWhile isSep).isEmpty = true
    · rw [if_pos he] at h
      by_cases hc : ((rem.take CHUNK_SIZE).isEmpty : Bool) = true
      · rw [if_pos hc] at h
        exact IterRes.noConfusion h
      · rw [if_neg hc] at h
        refine ih _ _ _ _ ?_ h
        have h1 : (rem.take CHUNK_SIZE).length ≤ rem.length := by
          simp [List.length_take]
        have h2 : (rem.drop CHUNK_SIZE).length = rem.length - CHUNK_SIZE := by
          simp [List.length_drop]
        have h3 : 1 ≤ (rem.take CHUNK_SIZE).length := by
          rcases hrem : rem.take CHUNK_SIZE with _ | ⟨a, t⟩
          · rw [hrem] at hc
            simp at hc
          · simp
        have h4 : (rem.take CHUNK_SIZE).length = min CHUNK_SIZE rem.length := by
          simp [List.length_take]
        omega
    · rw [if_neg he] at h
      by_cases hb : (buf.dropWhile isSep).head? = some ']'
      · rw [if_pos hb] at h
        exact IterRes.noConfusion h
      · rw [if_neg hb] at h
        rcases hd : rawDecode (buf.dropWhile isSep) with _ | ⟨v, idx⟩
        · rw [hd] at h
          by_cases hc : ((rem.take CHUNK_SIZE).isEmpty : Bool) = true
          · rw [if_pos hc] at h
            injection h with h1
            refine ⟨buf, acc, h1.symm, by simpa using he, hb, hd, ?_⟩
            exact iterLoop_failed_exhausted 0 buf acc (by simpa using he) hb hd
          · rw [if_neg hc] at h
            refine ih _ _ _ _ ?_ h
            have hs := dropWhile_len_le isSep buf
            have h1 : (rem.take CHUNK_SIZE).length ≤ rem.length := by
              simp [List.length_take]
            have h2 : (rem.drop CHUNK_SIZE).length = rem.length - CHUNK_SIZE := by
              simp [List.length_drop]
            have h3 : 1 ≤ (rem.take CHUNK_SIZE).length := by
              rcases hrem : rem.take CHUNK_SIZE with _ | ⟨a, t⟩
              · rw [hrem] at hc
                simp at hc
              · simp
            have h4 : (rem.take CHUNK_SIZE).length = min CHUNK_SIZE rem.length := by
              simp [List.length_take]
            simp only [List.length_append]
            omega
        · rw [hd] at h
          refine ih _ _ _ _ ?_ h
          obtain ⟨hi1, hi2⟩ := rawDecode_bounds _ _ _ hd
          have hs := dropWhile_len_le isSep buf
          have hne : buf.dropWhile isSep ≠ [] := by simpa using he
          have hpos : 1 ≤ (buf.dropWhile isSep).length := by
            rcases hq : buf.dropWhile isSep with _ | ⟨a, t⟩
            · exact absurd hq hne
            · simp
          have hdl : ((buf.dropWhile isSep).drop idx).length =
              (buf.dropWhile isSep).length - idx := by
            simp [List.length_drop]
          omega

/-- C4 counterexample: on the input `{}` the top-level structure is not an
array and the stream ends before any `[` is found, yet the generator ends
the sequence normally (yields nothing) instead of raising a parse error. -/
theorem c4_counterexample : iter_json_array "\x7b\x7d" = .ended [] := rfl

/-- C4 (amended): for every input in which the stream ends before any `[`
is found, the source ends the sequence normally with no values (it does not
fail); in every loop state with the stream exhausted and nothing buffered
(up to separators), and in every loop state whose buffer opens with a
closing `]`, the sequence ends normally with the values yielded so far; in
every loop state with the stream exhausted whose buffered text still fails
to decode, the parse error propagates; and every failing run of
`iter_json_array` ends in exactly such a state — exhausted stream, a
non-`]` buffer remainder on which `raw_decode` fails — whose yielded
values are the reported ones. -/
theorem c4_stream_amended :
    (∀ s : String, '[' ∉ s.data → iter_json_array s = .ended []) ∧
    (∀ (fuel : Nat) (buf : List Char) (acc : List Pyval),
      buf.dropWhile isSep = [] →
      iterLoop (fuel + 1) buf [] acc = .ended acc.reverse) ∧
    (∀ (fuel : Nat) (buf rem : List Char) (acc : List Pyval) (tl : List Char),
      buf.dropWhile isSep = ']' :: tl →
      iterLoop (fuel + 1) buf rem acc = .ended acc.reverse) ∧
    (∀ (fuel : Nat) (buf : List Char) (acc : List Pyval),
      buf.dropWhile isSep ≠ [] → (buf.dropWhile isSep).head? ≠ some ']' →
      rawDecode (buf.dropWhile isSep) = Option.none →
      iterLoop (fuel + 1) buf [] acc = .failed acc.reverse) ∧
    (∀ (s : String) (vs : List Pyval), iter_json_array s = .failed vs →
      ∃ buf2 acc2, vs = acc2.reverse ∧
        buf2.dropWhile isSep ≠ [] ∧
        (buf2.dropWhile isSep).head? ≠ some ']' ∧
        rawDecode (buf2.dropWhile isSep) = Option.none ∧
        iterLoop 1 buf2 [] acc2 = .failed acc2.reverse) := by
  refine ⟨?_, iterLoop_ended_empty, iterLoop_ended_bracket, iterLoop_failed_exhausted, ?_⟩
  · intro s hs
    unfold iter_json_array
    rw [iterFindStart_no_bracket _ [] s.data (by simp) hs]
  · intro s vs h
    unfold iter_json_array at h
    rcases hf : iterFindStart (s.length + 1) [] s.data with _ | ⟨buf, rem⟩
    · rw [hf] at h
      exact IterRes.noConfusion h
    · rw [hf] at h
      exact iterLoop_failed_source _ _ _ _ _ (by omega) h

/-- C4 witness: the no-bracket clause on the input `42`; the three loop-state
clauses on concrete states (separator-only buffer at end of stream, a `]`
buffer, an undecodable `{` buffer at end of stream); and the failure-source
clause on the failing run over `[1, {`. -/
theorem c4_witness :
    iter_json_array "42" = .ended [] ∧
    iterLoop 1 [' ', ','] [] [.int 7] = .ended [.int 7] ∧
    iterLoop 1 [']'] ['x'] [.int 7] = .ended [.int 7] ∧
    iterLoop 1 ['\x7b'] [] [.int 7] = .failed [.int 7] ∧
    ∃ buf2 acc2, ([Pyval.int 1] : List Pyval) = acc2.reverse ∧
      buf2.dropWhile isSep ≠ [] ∧
      (buf2.dropWhile isSep).head? ≠ some ']' ∧
      rawDecode (buf2.dropWhile isSep) = Option.none ∧
      iterLoop 1 buf2 [] acc2 = .failed acc2.reverse :=
  ⟨c4_stream_amended.1 "42" (by decide),
   c4_stream_amended.2.1 0 [' ', ','] [.int 7] (by decide),
   c4_stream_amended.2.2.1 0 [']'] ['x'] [.int 7] [] (by decide),
   c4_stream_amended.2.2.2.1 0 ['\x7b'] [.int 7] (by decide) (by decide) rfl,
   c4_stream_amended.2.2.2.2 "[1, \x7b" [.int 1] rfl⟩

/-! ### Claim C10 -/

theorem splitLoop_plain_lead :
    ∀ (pre l : List String) (cur : Option String) (buf : List String),
      (∀ x ∈ pre, seqStarts "[TOPIC_START]".data x.data = false) →
      splitLoop (pre ++ l) cur buf = splitLoop l cur (pre.reverse ++ buf) := by
  intro pre
  induction pre with
  | nil => intros; simp
  | cons p ps ih =>
    intro l cur buf h
    have hp := h p (by simp)
    simp only [List.cons_append, splitLoop, hp, Bool.false_eq_true, if_false, List.append_eq]
    rw [ih l cur (p :: buf) (fun x hx => h x (by simp [hx]))]
    simp

theorem splitLoop_first_flush :
    ∀ (l : List String) (t : String) (buf : List String), t ≠ "" →
      (splitLoop l (some t) buf).head? =
        some ⟨t, buf.reverse ++ l.takeWhile (fun x => !seqStarts "[TOPIC_START]".data x.data)⟩ := by
  intro l
  induction l with
  | nil => intro t buf ht; simp [splitLoop, ht]
  | cons x xs ih =>
    intro t buf ht
    by_cases hx : seqStarts "[TOPIC_START]".data x.data
    · simp [splitLoop, hx, ht, List.takeWhile_cons]
    · simp only [splitLoop, hx, Bool.false_eq_true, if_false]
      rw [ih t (x :: buf) ht]
      simp [List.takeWhile_cons, hx]

/-- C10: input lines before the first `[TOPIC_START]` marker are not
discarded — the empty-title flush keeps the buffer, so those leading lines
open the body of the first flushed topic document. -/
theorem c10_leading_lines_kept :
    ∀ (pre rest : List String) (mline : String),
      (∀ x ∈ pre, seqStarts "[TOPIC_START]".data x.data = false) →
      seqStarts "[TOPIC_START]".data mline.data = true →
      markerTitle mline ≠ "" →
      (split_topics_docs (pre ++ mline :: rest)).head? =
        some ⟨markerTitle mline,
              pre ++ rest.takeWhile (fun x => !seqStarts "[TOPIC_START]".data x.data)⟩ := by
  intro pre rest mline hpre hm ht
  unfold split_topics_docs
  rw [splitLoop_plain_lead pre (mline :: rest) Option.none [] hpre]
  simp only [splitLoop, hm, if_pos]
  rw [splitLoop_first_flush rest (markerTitle mline) (pre.reverse ++ []) ht]
  simp

/-- C10 witness: two leading lines before the first marker open the first
document's body. -/
theorem c10_witness :
    (split_topics_docs ["pre1", "pre2", "[TOPIC_START] 2026-01 Topic-001", "l1",
        "[TOPIC_START] 2026-01 Topic-002", "l2"]).head? =
      some ⟨"2026-01 Topic-001", ["pre1", "pre2", "l1"]⟩ := by
  have h := c10_leading_lines_kept ["pre1", "pre2"]
    ["l1", "[TOPIC_START] 2026-01 Topic-002", "l2"]
    "[TOPIC_START] 2026-01 Topic-001" (by decide) (by decide) (by decide)
  simpa using h

/-! ### Claim C1 -/

/-- C1: for every conversation whose `mapping` is a (truthy) dict, the
linearizer reconciles its two candidates exactly as claimed: the
latest-branch candidate when the active-path candidate yields no messages,
the active-path candidate verbatim (same content and order) when it is
non-empty and at least as long, and the latest-branch candidate only when
it is strictly longer. -/
theorem c1_linearizer_reconciliation :
    ∀ (cfs ms : List (String × Pyval)) (pids fids : List String)
      (p f : List NormMsg),
      dictGetD cfs "mapping" .none = .dict ms → ms ≠ [] →
      collect_path_from_current_node cfs ms = .ok pids →
      path_to_messages ms pids = .ok p →
      collect_latest_branch_path ms = .ok fids →
      path_to_messages ms fids = .ok f →
      (p = [] → linearize_conversation (.dict cfs) = .ok f) ∧
      (p ≠ [] → f.length ≤ p.length → linearize_conversation (.dict cfs) = .ok p) ∧
      (p.length < f.length → linearize_conversation (.dict cfs) = .ok f) := by
  intro cfs ms pids fids p f hmap hne hpids hp hfids hf
  have hconv : truthy (Pyval.dict cfs) = true := by
    rcases cfs with _ | ⟨c, rest⟩
    · simp [dictGetD] at hmap
    · simp [truthy]
  have hmsne : truthy (Pyval.dict ms) = true := by
    rcases ms with _ | _
    · exact absurd rfl hne
    · simp [truthy]
  have hlin : linearize_conversation (.dict cfs) =
      .ok (if p.isEmpty then f else if p.length < f.length then f else p) := by
    simp only [linearize_conversation, hconv, Bool.true_eq_false, if_false, hmap, hmsne,
      hpids, exc_ok_bind, hp, hfids, hf]
  refine ⟨?_, ?_, ?_⟩
  · intro hp0
    subst hp0
    simpa using hlin
  · intro hp0 hlen
    rcases p with _ | ⟨m0, p2⟩
    · exact absurd rfl hp0
    · rw [hlin, if_neg (by simp), if_neg (Nat.not_lt.mpr hlen)]
  · intro hlen
    rcases p with _ | ⟨m0, p2⟩
    · simpa using hlin
    · rw [hlin, if_neg (by simp), if_pos hlen]

/-- C1 witness: a two-node conversation where the active path is non-empty
and at least as long as the latest-branch candidate, returned verbatim. -/
theorem c1_witness :
    linearize_conversation (.dict [("mapping",
      .dict [("a", .dict [("parent", .none), ("children", .list [.str "b"]),
                          ("message", .dict [("content", .str "hi"), ("create_time", .int 5)])]),
             ("b", .dict [("parent", .str "a"), ("children", .list []),
                          ("message", .dict [("content", .str "yo"), ("create_time", .int 9)])])]),
      ("current_node", .str "b")]) =
      .ok [⟨.str "assistant", "hi", 5⟩, ⟨.str "assistant", "yo", 9⟩] :=
  (c1_linearizer_reconciliation
    [("mapping",
      .dict [("a", .dict [("parent", .none), ("children", .list [.str "b"]),
                          ("message", .dict [("content", .str "hi"), ("create_time", .int 5)])]),
             ("b", .dict [("parent", .str "a"), ("children", .list []),
                          ("message", .dict [("content", .str "yo"), ("create_time", .int 9)])])]),
      ("current_node", .str "b")]
    [("a", .dict [("parent", .none), ("children", .list [.str "b"]),
                  ("message", .dict [("content", .str "hi"), ("create_time", .int 5)])]),
     ("b", .dict [("parent", .str "a"), ("children", .list []),
                  ("message", .dict [("content", .str "yo"), ("create_time", .int 9)])])]
    ["a", "b"] ["a", "b"]
    [⟨.str "assistant", "hi", 5⟩, ⟨.str "assistant", "yo", 9⟩]
    [⟨.str "assistant", "hi", 5⟩, ⟨.str "assistant", "yo", 9⟩]
    rfl (by simp) rfl rfl rfl rfl).2.1 (by simp) (by simp)

/-! ### Claim C3 -/

/-- C3 counterexample: the flat input form applies no content filtering, so
a conversation built from one fully-empty raw message is yielded with an
empty-content normalized message in its sequence. -/
theorem c3_counterexample :
    parse_openai_conversations (.list [.dict [("messages", .list [.dict []])]]) =
      .ok [⟨.str "Conversation", [⟨.str "assistant", "", 0⟩]⟩] := rfl

theorem path_to_messages_nonempty (ms : List (String × Pyval)) :
    ∀ (ids : List String) (msgs : List NormMsg),
      path_to_messages ms ids = .ok msgs → ∀ m ∈ msgs, m.content ≠ "" := by
  intro ids
  induction ids with
  | nil =>
    intro msgs h m hm
    simp only [path_to_messages] at h
    injection h with h
    subst h
    simp at hm
  | cons pid rest ih =>
    intro msgs h m hm
    simp only [path_to_messages] at h
    rw [exceptBind_eq_ok] at h
    obtain ⟨msgV, _, h2⟩ := h
    by_cases ht : truthy msgV = false
    · rw [if_pos ht] at h2
      exact ih msgs h2 m hm
    · rw [if_neg ht] at h2
      rw [exceptBind_eq_ok] at h2
      obtain ⟨nm, _, h3⟩ := h2
      rw [exceptBind_eq_ok] at h3
      obtain ⟨tail, htail, h4⟩ := h3
      injection h4 with h4
      subst h4
      by_cases hcne : nm.content != ""
      · rw [if_pos hcne] at hm
        rcases List.mem_cons.mp hm with hm | hm
        · subst hm
          exact bne_iff_ne.mp hcne
        · exact ih tail htail m hm
      · rw [if_neg hcne] at hm
        exact ih tail htail m hm

/-- C3 (amended): every message in a sequence returned by the linearizer
(the branching `mapping` form) has non-empty content — both candidates are
filtered by `path_to_messages`; the flat `messages` form, however, retains
normalized messages unfiltered, so empty-content messages can appear in a
yielded conversation there (they are only skipped later, at day-write). -/
theorem c3_nonempty_amended :
    (∀ conv msgs, linearize_conversation conv = .ok msgs → ∀ m ∈ msgs, m.content ≠ "") ∧
    parse_openai_conversations (.dict [("conversations", .list [.dict [("messages",
      .list [.dict [("role", .str "user")]])]])]) =
      .ok [⟨.str "Conversation", [⟨.str "user", "", 0⟩]⟩] := by
  refine ⟨?_, rfl⟩
  intro conv msgs h m hm
  unfold linearize_conversation at h
  by_cases hcv : truthy conv = false
  · rw [if_pos hcv] at h
    injection h with h
    subst h
    simp at hm
  · rw [if_neg hcv] at h
    cases conv with
    | dict cfs =>
      dsimp only [] at h
      by_cases hmv : truthy (dictGetD cfs "mapping" .none) = false
      · rw [if_pos hmv] at h
        injection h with h
        subst h
        simp at hm
      · rw [if_neg hmv] at h
        cases hq : dictGetD cfs "mapping" .none with
        | dict ms =>
          rw [hq] at h
          rw [exceptBind_eq_ok] at h
          obtain ⟨pids, _, h2⟩ := h
          rw [exceptBind_eq_ok] at h2
          obtain ⟨p, hp, h3⟩ := h2
          rw [exceptBind_eq_ok] at h3
          obtain ⟨fids, _, h4⟩ := h3
          rw [exceptBind_eq_ok] at h4
          obtain ⟨f, hf, h5⟩ := h4
          injection h5 with h5
          subst h5
          by_cases hp0 : p.isEmpty
          · rw [if_pos hp0] at hm
            exact path_to_messages_nonempty ms fids f hf m hm
          · rw [if_neg hp0] at hm
            by_cases hlen : p.length < f.length
            · rw [if_pos hlen] at hm
              exact path_to_messages_nonempty ms fids f hf m hm
            · rw [if_neg hlen] at hm
              exact path_to_messages_nonempty ms pids p hp m hm
        | none => rw [hq] at h; simp at h
        | bool b2 => rw [hq] at h; simp at h
        | int n2 => rw [hq] at h; simp at h
        | float q2 => rw [hq] at h; simp at h
        | str s2 => rw [hq] at h; simp at h
        | list xs2 => rw [hq] at h; simp at h
    | none => simp at h
    | bool b => simp at h
    | int n => simp at h
    | float q => simp at h
    | str s => simp at h
    | list xs => simp at h

/-- C3 witness: the branching-form guarantee applied to a concrete
conversation. -/
theorem c3_witness : (⟨Pyval.str "assistant", "hi", 5⟩ : NormMsg).content ≠ "" :=
  c3_nonempty_amended.1
    (.dict [("mapping",
      .dict [("a", .dict [("parent", .none), ("children", .list [.str "b"]),
                          ("message", .dict [("content", .str "hi"), ("create_time", .int 5)])]),
             ("b", .dict [("parent", .str "a"), ("children", .list []),
                          ("message", .dict [("content", .str "yo"), ("create_time", .int 9)])])]),
      ("current_node", .str "b")])
    [⟨.str "assistant", "hi", 5⟩, ⟨.str "assistant", "yo", 9⟩]
    rfl ⟨.str "assistant", "hi", 5⟩ (by simp)

/-! ### Claim C5 -/

theorem mem_insSorted {α : Type} (le : α → α → Bool) (x y : α) :
    ∀ l, y ∈ insSorted le x l ↔ y = x ∨ y ∈ l := by
  intro l
  induction l with
  | nil => simp [insSorted]
  | cons z zs ih =>
    simp only [insSorted]
    by_cases h : le z x
    · simp only [h, if_true, List.mem_cons, ih]
      tauto
    · simp only [h, Bool.false_eq_true, if_false, List.mem_cons]

theorem mem_sortStable {α : Type} (le : α → α → Bool) (l : List α) (y : α) :
    y ∈ sortStable le l ↔ y ∈ l := by
  suffices h : ∀ acc, y ∈ l.foldl (fun acc x => insSorted le x acc) acc ↔ y ∈ acc ∨ y ∈ l by
    simpa [sortStable] using h []
  induction l with
  | nil => intro acc; simp
  | cons z zs ih =>
    intro acc
    simp only [List.foldl_cons]
    rw [ih (insSorted le z acc), mem_insSorted]
    simp only [List.mem_cons]
    tauto

theorem lastFrom_zero (last : Option Int) (lines : List String) :
    lastFrom last lines 0 = last := rfl

theorem lastFrom_cons (last : Option Int) (line : String) (rest : List String) (d : Nat) :
    lastFrom last (line :: rest) (d + 1) =
      lastFrom (match truthyTs line with | some t => some t | Option.none => last) rest d := rfl

theorem exists_lt_cons_iff {P : Nat → Prop} {n : Nat} (k j : Nat) :
    (∃ d, d < n + 1 ∧ j = k + d ∧ P d) ↔
      ((j = k ∧ P 0) ∨ (∃ d2, d2 < n ∧ j = (k + 1) + d2 ∧ P (d2 + 1))) := by
  constructor
  · rintro ⟨d, hd, hj, hp⟩
    rcases d with _ | d2
    · exact Or.inl ⟨by omega, hp⟩
    · exact Or.inr ⟨d2, by omega, by omega, hp⟩
  · rintro (⟨hj, hp⟩ | ⟨d2, hd, hj, hp⟩)
    · exact ⟨0, by omega, by omega, hp⟩
    · exact ⟨d2 + 1, by omega, by omega, hp⟩

theorem mem_detectLoop (gap : Int) (trigs : List String) :
    ∀ (lines : List String) (k : Nat) (last : Option Int) (j : Nat),
      j ∈ detectLoop gap trigs lines k last ↔
        ∃ d, d < lines.length ∧ j = k + d ∧
          ((∃ line2 t l, lines[d]? = some line2 ∧ truthyTs line2 = some t ∧
             lastFrom last lines d = some l ∧ t - l ≥ gap * 3600) ∨
           (∃ line2, lines[d]? = some line2 ∧ hasTrigger trigs line2 = true)) := by
  intro lines
  induction lines with
  | nil => intro k last j; simp [detectLoop]
  | cons line rest ih =>
    intro k last j
    simp only [List.length_cons]
    rw [exists_lt_cons_iff k j]
    simp only [List.getElem?_cons_succ, List.getElem?_cons_zero, lastFrom_cons, lastFrom_zero,
      Option.some.injEq]
    simp only [detectLoop, List.mem_append]
    rcases last with _ | l
    · rcases hts : truthyTs line with _ | t
      · by_cases htr : hasTrigger trigs line <;> simp [ih, htr, hts]
      · by_cases htr : hasTrigger trigs line <;> simp [ih, htr, hts]
    · rcases hts : truthyTs line with _ | t
      · by_cases htr : hasTrigger trigs line <;> simp [ih, htr, hts]
      · by_cases hc : t - l ≥ gap * 3600 <;>
          by_cases htr : hasTrigger trigs line <;>
          simp [ih, htr, hts, hc]

/-- C5 counterexample: two same-day lines whose timestamps differ by 6 hours
in the backward direction (at least the 4-hour threshold in magnitude)
produce no boundary at index 1 — only the unconditional boundary at 0 — so
the gap rule is not direction-independent. -/
theorem c5_counterexample :
    detect_topic_boundaries
      ["[2026-01-10 12:00:00] u: a", "[2026-01-10 06:00:00] u: b"] 4 [] = [0] := rfl

/-- C5 (amended): the segmenter places a boundary at line `i` exactly when
`i = 0`, or line `i`'s parsed timestamp exceeds the previous parsed
timestamp by at least `gap_hours * 3600` seconds (backward differences never
create a gap boundary), or line `i` contains a trigger substring. -/
theorem c5_gap_amended :
    ∀ (lines : List String) (gap_hours : Int) (triggers : List String) (i : Nat),
      i ∈ detect_topic_boundaries lines gap_hours triggers ↔
        (i = 0 ∨ gapAt lines gap_hours i ∨ trigAt triggers lines i) := by
  intro lines gap trigs i
  unfold detect_topic_boundaries
  rw [mem_sortStable, List.mem_dedup, List.mem_append, mem_detectLoop]
  simp only [List.mem_singleton]
  constructor
  · rintro (⟨d, hd, hj, hcl⟩ | h0)
    · subst hj
      simp only [Nat.zero_add]
      rcases hcl with ⟨line2, t, l, h1, h2, h3, h4⟩ | ⟨line2, h1, h2⟩
      · exact Or.inr (Or.inl ⟨line2, t, l, by simpa using h1, h2, by simpa using h3, h4⟩)
      · exact Or.inr (Or.inr ⟨line2, by simpa using h1, h2⟩)
    · exact Or.inl h0
  · rintro (h0 | hga | htr)
    · exact Or.inr h0
    · left
      obtain ⟨line2, t, l, h1, h2, h3, h4⟩ := hga
      have hd : i < lines.length := by
        by_contra hge
        rw [List.getElem?_eq_none (by omega)] at h1
        exact Option.noConfusion h1
      exact ⟨i, hd, by omega, Or.inl ⟨line2, t, l, h1, h2, h3, h4⟩⟩
    · left
      obtain ⟨line2, h1, h2⟩ := htr
      have hd : i < lines.length := by
        by_contra hge
        rw [List.getElem?_eq_none (by omega)] at h1
        exact Option.noConfusion h1
      exact ⟨i, hd, by omega, Or.inr ⟨line2, h1, h2⟩⟩

/-- C5 witness: a forward 6-hour jump does produce the boundary at index 1
(the characterization applied at a concrete input). -/
theorem c5_witness :
    1 ∈ detect_topic_boundaries
      ["[2026-01-10 06:00:00] u: a", "[2026-01-10 12:00:00] u: b"] 4 [] := by
  apply (c5_gap_amended _ 4 [] 1).mpr
  refine Or.inr (Or.inl ⟨"[2026-01-10 12:00:00] u: b", 1768046400, 1768024800,
    rfl, rfl, rfl, by norm_num⟩)

/-! ### Claim C6 -/

theorem length_filter_mono {α : Type} {l : List α} {p q : α → Bool}
    (h : ∀ x, p x = true → q x = true) :
    (l.filter p).length ≤ (l.filter q).length := by
  induction l with
  | nil => simp
  | cons a l ih =>
    simp only [List.filter_cons]
    by_cases hp : p a = true
    · rw [if_pos hp, if_pos (h a hp)]
      simpa using ih
    · rw [if_neg hp]
      by_cases hq : q a = true
      · rw [if_pos hq]
        exact le_trans ih (by simp)
      · rw [if_neg hq]
        exact ih

theorem measure_decrease (acc : List String) (s : String) :
    ∀ keys : List String, s ∈ keys → acc.contains s = false →
      (keys.filter (fun x => !(s :: acc).contains x)).length <
        (keys.filter (fun x => !acc.contains x)).length := by
  have hmono : ∀ x : String, (!(s :: acc).contains x) = true → (!acc.contains x) = true := by
    intro x hx
    simp only [List.contains_cons, Bool.not_or] at hx
    simp only [Bool.and_eq_true, Bool.not_eq_eq_eq_not, Bool.not_true] at hx
    simpa using hx.2
  intro keys
  induction keys with
  | nil => intro hmem; simp at hmem
  | cons a keys ih =>
    intro hmem hacc
    simp only [List.filter_cons]
    rcases List.mem_cons.mp hmem with rfl | hmem2
    · rw [if_neg (by simp), if_pos (by simpa using hacc)]
      exact Nat.lt_succ_of_le (length_filter_mono hmono)
    · by_cases ha : (!(s :: acc).contains a) = true
      · rw [if_pos ha, if_pos (hmono a ha)]
        simpa using ih hmem2 hacc
      · rw [if_neg ha]
        by_cases ha2 : (!acc.contains a) = true
        · rw [if_pos ha2]
          exact Nat.lt_succ_of_lt (ih hmem2 hacc)
        · rw [if_neg ha2]
          exact ih hmem2 hacc

theorem collectLoop_stable (mapping : List (String × Pyval)) :
    ∀ (fuel1 fuel2 : Nat) (v : Pyval) (acc : List String),
      ((keysOf mapping).filter (fun x => !acc.contains x)).length < fuel1 →
      ((keysOf mapping).filter (fun x => !acc.contains x)).length < fuel2 →
      collectLoop mapping fuel1 v acc = collectLoop mapping fuel2 v acc := by
  intro fuel1
  induction fuel1 with
  | zero => intro fuel2 v acc h1 _; exact absurd h1 (Nat.not_lt_zero _)
  | succ n ih =>
    intro fuel2 v acc h1 h2
    rcases fuel2 with _ | m
    · exact absurd h2 (Nat.not_lt_zero _)
    · simp only [collectLoop]
      by_cases ht : truthy v = false
      · rw [if_pos ht, if_pos ht]
      · rw [if_neg ht, if_neg ht]
        rcases v with _ | b | nn | q | s | xs | fs2
        · rfl
        · rfl
        · rfl
        · rfl
        · dsimp only []
          by_cases hseen : acc.contains s = true
          · rw [if_pos hseen, if_pos hseen]
          · rw [if_neg hseen, if_neg hseen]
            by_cases hkey : (keysOf mapping).contains s = false
            · rw [if_pos hkey, if_pos hkey]
            · rw [if_neg hkey, if_neg hkey]
              rcases hp : orDictGet (dictGetD mapping s .none) "parent" with e | p
              · rfl
              · rw [exc_ok_bind, exc_ok_bind]
                have hmem : s ∈ keysOf mapping := by
                  have := Bool.not_eq_false ((keysOf mapping).contains s) |>.mp hkey
                  simpa using this
                have hsn : acc.contains s = false := by
                  simpa using hseen
                have hdec := measure_decrease acc s (keysOf mapping) hmem hsn
                exact ih m p (s :: acc) (by omega) (by omega)
        · rfl
        · rfl

theorem collectLoop_nodup (mapping : List (String × Pyval)) :
    ∀ (fuel : Nat) (v : Pyval) (acc ids : List String),
      acc.Nodup → collectLoop mapping fuel v acc = .ok ids → ids.Nodup := by
  intro fuel
  induction fuel with
  | zero => intro v acc ids _ h; exact Except.noConfusion h
  | succ n ih =>
    intro v acc ids hnd h
    simp only [collectLoop] at h
    by_cases ht : truthy v = false
    · rw [if_pos ht] at h
      injection h with h
      subst h
      exact hnd
    · rw [if_neg ht] at h
      rcases v with _ | b | nn | q | s | xs | fs2
      · exact absurd rfl ht
      · injection h with h; subst h; exact hnd
      · injection h with h; subst h; exact hnd
      · injection h with h; subst h; exact hnd
      · dsimp only [] at h
        by_cases hseen : acc.contains s = true
        · rw [if_pos hseen] at h
          injection h with h
          subst h
          exact hnd
        · rw [if_neg hseen] at h
          by_cases hkey : (keysOf mapping).contains s = false
          · rw [if_pos hkey] at h
            injection h with h
            subst h
            exact hnd
          · rw [if_neg hkey] at h
            rw [exceptBind_eq_ok] at h
            obtain ⟨p, _, hrec⟩ := h
            refine ih p (s :: acc) ids (List.nodup_cons.mpr ⟨?_, hnd⟩) hrec
            simpa using hseen
      · exact Except.noConfusion h
      · exact Except.noConfusion h

theorem collectLoop_stop (mapping : List (String × Pyval)) :
    ∀ (fuel : Nat) (v : Pyval) (acc ids : List String),
      collectLoop mapping fuel v acc = .ok ids →
      (ids = acc ∧ stopsHere mapping acc v = true) ∨
      (∃ h0 t0, ids = h0 :: t0 ∧
        ∃ p, orDictGet (dictGetD mapping h0 .none) "parent" = .ok p ∧
          stopsHere mapping ids p = true) := by
  intro fuel
  induction fuel with
  | zero => intro v acc ids h; exact Except.noConfusion h
  | succ n ih =>
    intro v acc ids h
    simp only [collectLoop] at h
    by_cases ht : truthy v = false
    · rw [if_pos ht] at h
      injection h with h
      exact Or.inl ⟨h.symm, by simp [stopsHere, ht]⟩
    · rw [if_neg ht] at h
      rcases v with _ | b | nn | q | s | xs | fs2
      · exact absurd rfl ht
      · injection h with h
        exact Or.inl ⟨h.symm, by simp [stopsHere, ht]⟩
      · injection h with h
        exact Or.inl ⟨h.symm, by simp [stopsHere, ht]⟩
      · injection h with h
        exact Or.inl ⟨h.symm, by simp [stopsHere, ht]⟩
      · dsimp only [] at h
        by_cases hseen : acc.contains s
        · rw [if_pos hseen] at h
          injection h with h
          refine Or.inl ⟨h.symm, ?_⟩
          simp only [stopsHere]
          rw [if_neg ht]
          simp only [Bool.or_eq_true]
          exact Or.inl hseen
        · rw [if_neg hseen] at h
          by_cases hkey : (keysOf mapping).contains s = false
          · rw [if_pos hkey] at h
            injection h with h
            refine Or.inl ⟨h.symm, ?_⟩
            simp only [stopsHere]
            rw [if_neg ht]
            simp only [Bool.or_eq_true, Bool.not_eq_eq_eq_not, Bool.not_true]
            exact Or.inr hkey
          · rw [if_neg hkey] at h
            rw [exceptBind_eq_ok] at h
            obtain ⟨p, hp, hrec⟩ := h
            rcases ih p (s :: acc) ids hrec with ⟨hids, hstop⟩ | ⟨h0, t0, hids, p2, hp2, hstop⟩
            · refine Or.inr ⟨s, acc, hids, p, hp, ?_⟩
              rw [hids]
              exact hstop
            · exact Or.inr ⟨h0, t0, hids, p2, hp2, hstop⟩
      · exact Except.noConfusion h
      · exact Except.noConfusion h

/-- C6: the active-path extraction terminates on every mapping (its result
is independent of the fuel once the fuel exceeds the mapping size), never
revisits a node identifier (the returned identifier sequence is
duplicate-free), and stops exactly when the next parent value is falsy,
already visited, or not a key of the mapping. -/
theorem c6_active_path_walk :
    ∀ (convFields mapping : List (String × Pyval)),
      (∀ fuel v, mapping.length < fuel →
        collectLoop mapping fuel v [] = collectLoop mapping (mapping.length + 1) v []) ∧
      (∀ ids, collect_path_from_current_node convFields mapping = .ok ids → ids.Nodup) ∧
      (∀ ids h0 t0, collect_path_from_current_node convFields mapping = .ok ids →
        ids = h0 :: t0 →
        ∃ p, orDictGet (dictGetD mapping h0 .none) "parent" = .ok p ∧
          stopsHere mapping ids p = true) := by
  intro convFields mapping
  have hmeas : ((keysOf mapping).filter (fun x => !([] : List String).contains x)).length =
      mapping.length := by
    simp [keysOf]
  refine ⟨?_, ?_, ?_⟩
  · intro fuel v hf
    exact collectLoop_stable mapping fuel (mapping.length + 1) v []
      (by rw [hmeas]; omega) (by rw [hmeas]; omega)
  · intro ids h
    unfold collect_path_from_current_node at h
    by_cases h0 : truthy (dictGetD convFields "current_node" .none) = false
    · rw [if_pos h0] at h
      injection h with h
      subst h
      exact List.nodup_nil
    · rw [if_neg h0] at h
      rw [exceptBind_eq_ok] at h
      obtain ⟨b, _, h2⟩ := h
      by_cases hb : b = false
      · rw [if_pos hb] at h2
        injection h2 with h2
        subst h2
        exact List.nodup_nil
      · rw [if_neg hb] at h2
        exact collectLoop_nodup mapping _ _ [] ids List.nodup_nil h2
  · intro ids h0 t0 h hids
    unfold collect_path_from_current_node at h
    by_cases hv : truthy (dictGetD convFields "current_node" .none) = false
    · rw [if_pos hv] at h
      injection h with h
      rw [← h] at hids
      exact List.noConfusion hids
    · rw [if_neg hv] at h
      rw [exceptBind_eq_ok] at h
      obtain ⟨b, _, h2⟩ := h
      by_cases hb : b = false
      · rw [if_pos hb] at h2
        injection h2 with h2
        rw [← h2] at hids
        exact List.noConfusion hids
      · rw [if_neg hb] at h2
        rcases collectLoop_stop mapping _ _ [] ids h2 with ⟨hide, _⟩ | ⟨h1, t1, hide, p, hp, hstop⟩
        · rw [hids] at hide
          exact List.noConfusion hide
        · subst hids
          injection hide with he1 he2
          subst he1
          exact ⟨p, hp, hstop⟩

/-- C6 witness: a two-node parent cycle reachable from the current node:
the walk's fuel is stable, its result `["b", "a"]` is duplicate-free, and it
stopped because the next parent (`"a"`) was already visited. -/
theorem c6_witness :
    collectLoop [("a", .dict [("parent", .str "b")]), ("b", .dict [("parent", .str "a")])]
        7 (.str "a") [] =
      collectLoop [("a", .dict [("parent", .str "b")]), ("b", .dict [("parent", .str "a")])]
        3 (.str "a") [] ∧
    (["b", "a"] : List String).Nodup ∧
    ∃ p, orDictGet (dictGetD [("a", .dict [("parent", .str "b")]),
          ("b", .dict [("parent", .str "a")])] "b" .none) "parent" = .ok p ∧
      stopsHere [("a", .dict [("parent", .str "b")]), ("b", .dict [("parent", .str "a")])]
        ["b", "a"] p = true := by
  refine ⟨?_, ?_, ?_⟩
  · exact (c6_active_path_walk [("current_node", .str "a")]
      [("a", .dict [("parent", .str "b")]), ("b", .dict [("parent", .str "a")])]).1
      7 (.str "a") (by norm_num)
  · exact (c6_active_path_walk [("current_node", .str "a")]
      [("a", .dict [("parent", .str "b")]), ("b", .dict [("parent", .str "a")])]).2.1
      ["b", "a"] rfl
  · exact (c6_active_path_walk [("current_node", .str "a")]
      [("a", .dict [("parent", .str "b")]), ("b", .dict [("parent", .str "a")])]).2.2
      ["b", "a"] "b" ["a"] rfl rfl

/-! ### Claim C8 -/

theorem detectLoop_nil (gap : Int) (trigs : List String) :
    ∀ (lines : List String) (k : Nat) (last : Option Int),
      (∀ line ∈ lines, ∃ t, truthyTs line = some t) →
      (∀ line ∈ lines, hasTrigger trigs line = false) →
      lines.Chain' (fun a b => ∀ t t2, truthyTs a = some t → truthyTs b = some t2 →
        t2 - t < gap * 3600) →
      (∀ l0 line t, last = some l0 → lines.head? = some line → truthyTs line = some t →
        t - l0 < gap * 3600) →
      detectLoop gap trigs lines k last = [] := by
  intro lines
  induction lines with
  | nil => intros; rfl
  | cons line rest ih =>
    intro k last hparse htrig hchain hhead
    obtain ⟨t, ht⟩ := hparse line (by simp)
    have h1 : hasTrigger trigs line = false := htrig line (by simp)
    rcases List.chain'_cons'.mp hchain with ⟨hrel, hchain2⟩
    have hrec : detectLoop gap trigs rest (k + 1) (some t) = [] := by
      refine ih (k + 1) (some t) (fun l hl => hparse l (by simp [hl]))
        (fun l hl => htrig l (by simp [hl])) hchain2 ?_
      intro l0 line2 t2 hl0 hhd ht2
      injection hl0 with hl0
      subst hl0
      exact hrel line2 hhd t t2 ht ht2
    simp only [detectLoop, ht, h1, Bool.false_eq_true, if_false]
    rcases last with _ | l0
    · simpa using hrec
    · have hlt := hhead l0 line t rfl (by simp) ht
      simp only [ge_iff_le]
      rw [if_neg (by omega)]
      simpa using hrec

theorem annotate_zero_only :
    ∀ (ls : List String) (i tidx : Nat), i ≠ 0 →
      annotate [0] ls i tidx = ls := by
  intro ls
  induction ls with
  | nil => intros; rfl
  | cons l ls ih =>
    intro i tidx hi
    simp only [annotate]
    rw [if_neg (by simp [List.contains_cons]; omega)]
    rw [ih (i + 1) tidx (by omega)]

/-- C8: topic segmentation always marks line index 0 as a boundary; and on
any non-empty input whose lines all carry parsed (truthy) timestamps that
are pairwise same-day and spaced under the gap threshold in either
direction, with no trigger substrings, the only boundary is index 0, so the
preview is a single `[TOPIC_START] ... Topic-001` header followed by the
whole file: exactly one topic covering the file. -/
theorem c8_single_topic :
    (∀ (lines : List String) (gap_hours : Int) (triggers : List String),
      0 ∈ detect_topic_boundaries lines gap_hours triggers) ∧
    (∀ (lines : List String) (gap_hours : Int) (triggers : List String)
      (l0 : String) (ls : List String),
      lines = l0 :: ls →
      (∀ line ∈ lines, ∃ t, truthyTs line = some t) →
      lines.Chain' (fun a b => ∀ t t2, truthyTs a = some t → truthyTs b = some t2 →
        t / 86400 = t2 / 86400 ∧ t2 - t < gap_hours * 3600 ∧ t - t2 < gap_hours * 3600) →
      (∀ line ∈ lines, hasTrigger triggers line = false) →
      detect_topic_boundaries lines gap_hours triggers = [0] ∧
      build_topic_preview_lines lines gap_hours triggers = mkTopicLine l0 1 :: lines) := by
  constructor
  · intro lines gap trigs
    unfold detect_topic_boundaries
    rw [mem_sortStable, List.mem_dedup, List.mem_append]
    simp
  · intro lines gap trigs l0 ls hcons hparse hchain htrig
    have hnil : detectLoop gap trigs lines 0 Option.none = [] := by
      refine detectLoop_nil gap trigs lines 0 Option.none hparse htrig ?_ ?_
      · exact hchain.imp (fun a b hab t t2 h1 h2 => (hab t t2 h1 h2).2.1)
      · intro l0' line t h
        exact fun _ _ => Option.noConfusion h
    have hdet : detect_topic_boundaries lines gap trigs = [0] := by
      unfold detect_topic_boundaries
      rw [hnil]
      rfl
    refine ⟨hdet, ?_⟩
    unfold build_topic_preview_lines
    rw [hdet, hcons]
    rw [if_neg (by simp)]
    simp only [annotate]
    rw [if_pos (by simp)]
    rw [annotate_zero_only ls 1 1 (by omega)]

/-- C8 witness: two same-day lines ten minutes apart with the default
trigger list produce exactly the single boundary 0 and a one-topic
preview. -/
theorem c8_witness :
    detect_topic_boundaries
      ["[2026-01-10 06:00:00] a", "[2026-01-10 06:10:00] b"] 4 TOPIC_TRIGGERS_DEFAULT = [0] ∧
    build_topic_preview_lines
      ["[2026-01-10 06:00:00] a", "[2026-01-10 06:10:00] b"] 4 TOPIC_TRIGGERS_DEFAULT =
      mkTopicLine "[2026-01-10 06:00:00] a" 1 ::
        ["[2026-01-10 06:00:00] a", "[2026-01-10 06:10:00] b"] := by
  refine c8_single_topic.2 _ 4 TOPIC_TRIGGERS_DEFAULT
    "[2026-01-10 06:00:00] a" ["[2026-01-10 06:10:00] b"] rfl ?_ ?_ ?_
  · intro line hl
    rcases List.mem_cons.mp hl with h | h
    · exact ⟨1768024800, by rw [h]; rfl⟩
    · rcases List.mem_cons.mp h with h2 | h2
      · exact ⟨1768025400, by rw [h2]; rfl⟩
      · simp at h2
  · refine List.chain'_cons.mpr ⟨?_, by simp⟩
    intro t t2 h1 h2
    have e1 : t = 1768024800 := by
      have : truthyTs "[2026-01-10 06:00:00] a" = some 1768024800 := rfl
      rw [this] at h1
      exact (Option.some.injEq _ _ ▸ h1).symm
    have e2 : t2 = 1768025400 := by
      have : truthyTs "[2026-01-10 06:10:00] b" = some 1768025400 := rfl
      rw [this] at h2
      exact (Option.some.injEq _ _ ▸ h2).symm
    subst e1
    subst e2
    refine ⟨by norm_num, by norm_num, by norm_num⟩
  · intro line hl
    rcases List.mem_cons.mp hl with h | h
    · rw [h]; rfl
    · rcases List.mem_cons.mp h with h2 | h2
      · rw [h2]; rfl
      · simp at h2

/-! ### Claim C7 -/

theorem emitLines_spec :
    ∀ (ls : List String) (c : Nat),
      (emitLines c ls).1.map MonthLine.anchor =
        List.range' (c + 1) (emitLines c ls).1.length ∧
      (emitLines c ls).2 = c + (emitLines c ls).1.length := by
  intro ls
  induction ls with
  | nil => intro c; simp [emitLines]
  | cons l ls ih =>
    intro c
    simp only [emitLines]
    rcases hsp : splitTab1 l.data with _ | ⟨before, rest⟩
    · exact ih c
    · obtain ⟨ha, hc⟩ := ih (c + 1)
      constructor
      · simp only [List.map_cons, List.length_cons, ha, List.range'_succ]
      · simp only [hc, List.length_cons]
        omega

theorem emitLines_ts :
    ∀ (ls : List String) (c : Nat),
      (emitLines c ls).1.map MonthLine.ts =
        (ls.filter (fun l => (splitTab1 l.data).isSome)).map key_fn := by
  intro ls
  induction ls with
  | nil => intro c; simp [emitLines]
  | cons l ls ih =>
    intro c
    simp only [emitLines, List.filter_cons]
    rcases hsp : splitTab1 l.data with _ | ⟨before, rest⟩
    · simp only [hsp, Option.isSome_none, Bool.false_eq_true, if_false]
      exact ih c
    · simp only [hsp, Option.isSome_some, if_true, List.map_cons]
      rw [ih (c + 1)]

theorem insSorted_pairwise {α : Type} (le : α → α → Bool)
    (htot : ∀ a b, le a b = true ∨ le b a = true)
    (htrans : ∀ a b c, le a b = true → le b c = true → le a c = true)
    (x : α) :
    ∀ l, l.Pairwise (fun a b => le a b = true) →
      (insSorted le x l).Pairwise (fun a b => le a b = true) := by
  intro l
  induction l with
  | nil => intro _; simp [insSorted]
  | cons y ys ih =>
    intro hp
    rcases List.pairwise_cons.mp hp with ⟨hy, hp2⟩
    simp only [insSorted]
    by_cases h : le y x = true
    · rw [if_pos h]
      refine List.pairwise_cons.mpr ⟨?_, ih hp2⟩
      intro z hz
      rcases (mem_insSorted le x z ys).mp hz with rfl | hz2
      · exact h
      · exact hy z hz2
    · rw [if_neg h]
      refine List.pairwise_cons.mpr ⟨?_, hp⟩
      intro z hz
      rcases List.mem_cons.mp hz with rfl | hz2
      · rcases htot x z with hxz | hzx
        · exact hxz
        · exact absurd hzx h
      · have hxy : le x y = true := by
          rcases htot x y with hxy | hyx
          · exact hxy
          · exact absurd hyx h
        exact htrans x y z hxy (hy z hz2)

theorem sortStable_pairwise {α : Type} (le : α → α → Bool)
    (htot : ∀ a b, le a b = true ∨ le b a = true)
    (htrans : ∀ a b c, le a b = true → le b c = true → le a c = true)
    (l : List α) :
    (sortStable le l).Pairwise (fun a b => le a b = true) := by
  suffices h : ∀ acc, acc.Pairwise (fun a b => le a b = true) →
      (l.foldl (fun acc x => insSorted le x acc) acc).Pairwise (fun a b => le a b = true) by
    exact h [] (by simp)
  induction l with
  | nil => intro acc h; exact h
  | cons z zs ih =>
    intro acc h
    simp only [List.foldl_cons]
    exact ih (insSorted le z acc) (insSorted_pairwise le htot htrans z acc h)

/-- The per-month output lines of one day-file step are the tab-bearing
lines of that file, keyed by `key_fn`, in `key_fn`-sorted order. -/
theorem processDay_newlines_sorted (dayFiles : List (String × List String)) (name : String) (c : Nat) :
    ((emitLines c (sortStable (fun a b => decide (key_fn a ≤ key_fn b))
        ((dayFiles.lookup name).getD []))).1.map MonthLine.ts).Pairwise (· ≤ ·) := by
  rw [emitLines_ts]
  apply List.pairwise_map.mpr
  have hs := sortStable_pairwise (fun a b => decide (key_fn a ≤ key_fn b))
    (fun a b => by
      rcases le_total (key_fn a) (key_fn b) with h | h
      · exact Or.inl (decide_eq_true h)
      · exact Or.inr (decide_eq_true h))
    (fun a b c h1 h2 => decide_eq_true (le_trans (of_decide_eq_true h1) (of_decide_eq_true h2)))
    ((dayFiles.lookup name).getD [])
  have hs2 : List.Pairwise (fun a b => decide (key_fn a ≤ key_fn b) = true)
      ((sortStable (fun a b => decide (key_fn a ≤ key_fn b))
        ((dayFiles.lookup name).getD [])).filter (fun l => (splitTab1 l.data).isSome)) :=
    hs.sublist (List.filter_sublist _)
  exact hs2.imp (fun h => of_decide_eq_true h)

theorem mem_emitLines_ts (c : Nat) (ls : List String) (ml : MonthLine)
    (h : ml ∈ (emitLines c ls).1) : ∃ l ∈ ls, ml.ts = key_fn l := by
  have h2 : ml.ts ∈ (emitLines c ls).1.map MonthLine.ts := List.mem_map_of_mem _ h
  rw [emitLines_ts] at h2
  obtain ⟨l, hl, he⟩ := List.mem_map.mp h2
  exact ⟨l, List.mem_of_mem_filter hl, he.symm⟩

theorem monthFold_sorted (dayFiles : List (String × List String)) (k : String) :
    ∀ (names : List String) (st : (String → Nat) × (String → List MonthLine)),
      names.Pairwise (crossOrdered dayFiles k) →
      ((st.2 k).map MonthLine.ts).Pairwise (· ≤ ·) →
      (∀ ml ∈ st.2 k, ∀ n ∈ names, monthKeyOfName n = k →
        ∀ l ∈ (dayFiles.lookup n).getD [], ml.ts ≤ key_fn l) →
      (((names.foldl (processDay dayFiles) st).2 k).map MonthLine.ts).Pairwise (· ≤ ·) := by
  intro names
  induction names with
  | nil => intro st _ hs _; exact hs
  | cons name rest ih =>
    intro st hpw hs hcross
    simp only [List.foldl_cons]
    rcases List.pairwise_cons.mp hpw with ⟨hname, hpw2⟩
    set lines := (dayFiles.lookup name).getD [] with hlines
    set sorted := sortStable (fun a b => decide (key_fn a ≤ key_fn b)) lines with hsorted
    set ms := (emitLines (st.1 (monthKeyOfName name)) sorted).1 with hms
    have hnewk : (processDay dayFiles st name).2 k =
        if k = monthKeyOfName name then st.2 k ++ ms else st.2 k := by
      simp only [processDay]
    apply ih (processDay dayFiles st name) hpw2
    · rw [hnewk]
      by_cases hk : k = monthKeyOfName name
      · rw [if_pos hk]
        rw [List.map_append]
        refine (List.pairwise_append).mpr ⟨hs, ?_, ?_⟩
        · subst hk
          exact processDay_newlines_sorted dayFiles name _
        · intro a ha b hb
          obtain ⟨mla, hmla, hea⟩ := List.mem_map.mp ha
          obtain ⟨mlb, hmlb, heb⟩ := List.mem_map.mp hb
          obtain ⟨l, hl, hts⟩ := mem_emitLines_ts _ _ _ hmlb
          have hl2 : l ∈ lines := by
            have := (mem_sortStable (fun a b => decide (key_fn a ≤ key_fn b)) lines l).mp
            exact this (by rw [← hsorted]; exact hl)
          subst hea
          subst heb
          rw [hts]
          exact hcross mla hmla name (by simp) hk.symm l hl2
      · rw [if_neg hk]
        exact hs
    · intro ml hml n hn hkn l hl
      rw [hnewk] at hml
      by_cases hk : k = monthKeyOfName name
      · rw [if_pos hk] at hml
        rcases List.mem_append.mp hml with hold | hnew
        · exact hcross ml hold n (by simp [hn]) hkn l hl
        · obtain ⟨l1, hl1, hts⟩ := mem_emitLines_ts _ _ _ hnew
          have hl1b : l1 ∈ lines := by
            have := (mem_sortStable (fun a b => decide (key_fn a ≤ key_fn b)) lines l1).mp
            exact this (by rw [← hsorted]; exact hl1)
          rw [hts]
          exact hname n hn hk.symm hkn l1 hl1b l hl
      · rw [if_neg hk] at hml
        exact hcross ml hml n (by simp [hn]) hkn l hl

theorem monthFold_anchors (dayFiles : List (String × List String)) :
    ∀ (names : List String) (st : (String → Nat) × (String → List MonthLine)),
      (∀ k, (st.2 k).map MonthLine.anchor = List.range' 1 (st.1 k) ∧
        (st.2 k).length = st.1 k) →
      ∀ k, (((names.foldl (processDay dayFiles) st).2) k).map MonthLine.anchor =
          List.range' 1 (((names.foldl (processDay dayFiles) st).1) k) ∧
        (((names.foldl (processDay dayFiles) st).2) k).length =
          ((names.foldl (processDay dayFiles) st).1) k := by
  intro names
  induction names with
  | nil => intro st h; exact h
  | cons name rest ih =>
    intro st h
    simp only [List.foldl_cons]
    apply ih
    intro k
    simp only [processDay]
    by_cases hk : k = monthKeyOfName name
    · rw [if_pos hk, if_pos hk]
      obtain ⟨ha, hl⟩ := h k
      obtain ⟨ha2, hc2⟩ := emitLines_spec
        (sortStable (fun a b => decide (key_fn a ≤ key_fn b))
          ((dayFiles.lookup name).getD [])) (st.1 (monthKeyOfName name))
      rw [← hk] at ha2 hc2 ⊢
      constructor
      · rw [List.map_append, ha, ha2, hc2]
        rw [Nat.add_comm (st.1 k) 1]
        simpa [Nat.add_comm] using List.range'_append 1 (st.1 k) _ 1
      · rw [List.length_append, hc2, hl]
    · rw [if_neg hk, if_neg hk]
      exact h k

/-- C7: in a single month-build run into a fresh `by_month` directory, the
anchors of any one month file are exactly the strictly increasing integers
1, 2, ... in write order, regardless of how many day files contributed; and
whenever the day files are consistently bucketed (every timestamp key of an
earlier same-month day file is at most every key of a later one — which the
day-bucketing writer guarantees), the merged line order is non-decreasing
in the original leading raw timestamp. -/
theorem c7_month_anchors_order :
    ∀ (dayFiles : List (String × List String)) (k : String),
      ((build_month_files dayFiles k).map MonthLine.anchor =
        List.range' 1 (build_month_files dayFiles k).length) ∧
      ((sortedRawNames dayFiles).Pairwise (crossOrdered dayFiles k) →
        ((build_month_files dayFiles k).map MonthLine.ts).Pairwise (· ≤ ·)) := by
  intro dayFiles k
  constructor
  · obtain ⟨ha, hl⟩ := monthFold_anchors dayFiles (sortedRawNames dayFiles)
      (fun _ => 0, fun _ => []) (fun k2 => by simp) k
    rw [show build_month_files dayFiles k =
      ((sortedRawNames dayFiles).foldl (processDay dayFiles)
        (fun _ => 0, fun _ => [])).2 k from rfl]
    rw [ha, hl]
  · intro hpw
    exact monthFold_sorted dayFiles k (sortedRawNames dayFiles)
      (fun _ => 0, fun _ => []) hpw (by simp) (by simp)

/-- C7 witness: two day files of the same month; anchors are 1, 2 and the
merged timestamps are non-decreasing. -/
theorem c7_witness :
    ((build_month_files [("2026-01-10.raw", ["1000\t[x] u: a"]),
        ("2026-01-11.raw", ["90000\t[y] u: b"])]) "2026-01").map MonthLine.anchor =
      List.range' 1 ((build_month_files [("2026-01-10.raw", ["1000\t[x] u: a"]),
        ("2026-01-11.raw", ["90000\t[y] u: b"])]) "2026-01").length ∧
    (((build_month_files [("2026-01-10.raw", ["1000\t[x] u: a"]),
        ("2026-01-11.raw", ["90000\t[y] u: b"])]) "2026-01").map MonthLine.ts).Pairwise
      (· ≤ ·) := by
  refine ⟨(c7_month_anchors_order _ "2026-01").1,
    (c7_month_anchors_order _ "2026-01").2 ?_⟩
  rw [show sortedRawNames [("2026-01-10.raw", ["1000\t[x] u: a"]),
    ("2026-01-11.raw", ["90000\t[y] u: b"])] = ["2026-01-10.raw", "2026-01-11.raw"] from rfl]
  refine List.pairwise_cons.mpr ⟨?_, List.pairwise_singleton _ _⟩
  intro n hn
  have hn2 : n = "2026-01-11.raw" := by simpa using hn
  subst hn2
  intro _ _ l1 hl1 l2 hl2
  have hl1b : l1 ∈ ["1000\t[x] u: a"] := hl1
  have hl2b : l2 ∈ ["90000\t[y] u: b"] := hl2
  have he1 : l1 = "1000\t[x] u: a" := List.mem_singleton.mp hl1b
  have he2 : l2 = "90000\t[y] u: b" := List.mem_singleton.mp hl2b
  subst he1
  subst he2
  decide
